import Mathlib

/-!
Verification of the BatchFlow reconciliation service (src/main.py) against its
natural-language specification.  The Python source is shallowly embedded:
pure helpers become Lean functions on `List Char` / `String`, the stateful
retry / pagination loops become explicit recursions over scripted server
responses, and the pandas dataframe pipeline of `_reconcile` becomes a
pipeline of list transformers.  Machine integers do not overflow in the
modelled code paths, so Nat/Int are used directly.
-/

/- ======================= generic string helpers ======================= -/

/-- ASCII lower-casing, mirroring Python `str.lower` on the ASCII range used
by `normalize_name` (non-ASCII letters are left unchanged; they are removed
by the character filter immediately afterwards either way). -/
def toLowerA (c : Char) : Char :=
  if 65 ≤ c.toNat ∧ c.toNat ≤ 90 then Char.ofNat (c.toNat + 32) else c

/-- Character class of the regex `[a-z0-9 ]` in `normalize_name`. -/
def isAllowedNm (c : Char) : Bool :=
  (97 ≤ c.toNat && c.toNat ≤ 122) || (48 ≤ c.toNat && c.toNat ≤ 57) || (c.toNat == 32)

/-- Python whitespace set used by `str.strip()` / regex `\s`. -/
def isPyWs (c : Char) : Bool :=
  c == ' ' || c == '\t' || c == '\n' || c == '\r' || c.toNat == 11 || c.toNat == 12

/-- Fuel-bounded core of the whitespace collapse; the fuel is only a
structural-recursion device and never runs out when it starts at the list
length. -/
def collapseGo : Nat → List Char → List Char
  | 0, l => l
  | _ + 1, [] => []
  | fuel + 1, c :: rest =>
    if isPyWs c then ' ' :: collapseGo fuel (rest.dropWhile isPyWs)
    else c :: collapseGo fuel rest

/-- The substitution `re.sub(r"\s+", " ", s)`: every maximal run of
whitespace becomes a single space. -/
def collapseWs (l : List Char) : List Char := collapseGo l.length l

/-- Python `str.strip()` restricted to the same whitespace class. -/
def stripWs (l : List Char) : List Char :=
  ((l.dropWhile isPyWs).reverse.dropWhile isPyWs).reverse

/-- Embedding of `normalize_name` (src/main.py:802-805):
lowercase, drop every character outside `[a-z0-9 ]`, collapse whitespace
runs to single spaces, strip the ends.  The empty string is returned for
falsy input, which the chain below also produces. -/
def normalize_name (s : String) : String :=
  ⟨stripWs (collapseWs ((s.data.map toLowerA).filter isAllowedNm))⟩

/-- Embedding of `bucket_key` (src/main.py:3092-3095): the first two
characters of the normalized name (the whole name if it has length ≤ 1). -/
def bucket_key (name : String) : String :=
  let n := normalize_name name
  if n.data.length > 1 then ⟨n.data.take 2⟩ else n

/-- Code-point lexicographic strict order on character lists; this is how
Python compares the `_orgid_sort` string column. -/
def lexLt : List Char → List Char → Bool
  | [], [] => false
  | [], _ :: _ => true
  | _ :: _, [] => false
  | a :: as, b :: bs =>
    if a.toNat < b.toNat then true
    else if b.toNat < a.toNat then false
    else lexLt as bs

/- ======================= date model (rule 2) ======================= -/

/-- A naive `datetime.datetime` value: year, month, day, hour, minute,
second. -/
structure PDT where
  y : Nat
  m : Nat
  d : Nat
  hh : Nat
  mi : Nat
  ss : Nat
deriving DecidableEq, Repr

/-- Strict comparison `a < b` on naive datetimes (field-lexicographic, as in
Python). -/
def pdtLt (a b : PDT) : Bool :=
  if a.y ≠ b.y then a.y < b.y
  else if a.m ≠ b.m then a.m < b.m
  else if a.d ≠ b.d then a.d < b.d
  else if a.hh ≠ b.hh then a.hh < b.hh
  else if a.mi ≠ b.mi then a.mi < b.mi
  else a.ss < b.ss

/-- Gregorian leap-year test (as validated by `datetime`). -/
def isLeap (y : Nat) : Bool :=
  (y % 4 == 0 && y % 100 != 0) || (y % 400 == 0)

/-- Days in a month, for `datetime` range validation. -/
def daysInMonth (y m : Nat) : Nat :=
  if m = 2 then (if isLeap y then 29 else 28)
  else if m = 4 ∨ m = 6 ∨ m = 9 ∨ m = 11 then 30
  else 31

/-- Decimal digit value of a character, if it is a digit. -/
def digitVal (c : Char) : Option Nat :=
  if 48 ≤ c.toNat ∧ c.toNat ≤ 57 then some (c.toNat - 48) else none

/-- Combines four digit characters into a number. -/
def num4 (a b c d : Char) : Option Nat := do
  let x ← digitVal a
  let y ← digitVal b
  let z ← digitVal c
  let w ← digitVal d
  pure (((x * 10 + y) * 10 + z) * 10 + w)

/-- Combines two digit characters into a number. -/
def num2 (a b : Char) : Option Nat := do
  let x ← digitVal a
  let y ← digitVal b
  pure (x * 10 + y)

/-- Validates a calendar date the way `datetime` does. -/
def mkDate (y m d : Nat) : Option (Nat × Nat × Nat) :=
  if 1 ≤ m ∧ m ≤ 12 ∧ 1 ≤ d ∧ d ≤ daysInMonth y m ∧ 1 ≤ y ∧ y ≤ 9999 then
    some (y, m, d)
  else none

/-- Validates a time of day the way `datetime` does. -/
def mkTime (h m s : Nat) : Option (Nat × Nat × Nat) :=
  if h ≤ 23 ∧ m ≤ 59 ∧ s ≤ 59 then some (h, m, s) else none

/-- Embedding of `datetime.fromisoformat` on the shapes the cleaned
Pipedrive values can take: `YYYY-MM-DD`, optionally followed by a `T` or
space separator and `HH:MM` or `HH:MM:SS`.  Everything else (including
offset-carrying forms, which would make the later naive comparison raise
and hence the caller return `False`) is rejected. -/
def fromisoformat (l : List Char) : Option PDT :=
  match l with
  | [y1, y2, y3, y4, '-', m1, m2, '-', d1, d2] => do
    let y ← num4 y1 y2 y3 y4
    let m ← num2 m1 m2
    let d ← num2 d1 d2
    let _ ← mkDate y m d
    pure ⟨y, m, d, 0, 0, 0⟩
  | [y1, y2, y3, y4, '-', m1, m2, '-', d1, d2, sep, h1, h2, ':', i1, i2] => do
    if sep = 'T' ∨ sep = ' ' then
      let y ← num4 y1 y2 y3 y4
      let m ← num2 m1 m2
      let d ← num2 d1 d2
      let _ ← mkDate y m d
      let hh ← num2 h1 h2
      let mi ← num2 i1 i2
      let _ ← mkTime hh mi 0
      pure ⟨y, m, d, hh, mi, 0⟩
    else none
  | [y1, y2, y3, y4, '-', m1, m2, '-', d1, d2, sep, h1, h2, ':', i1, i2, ':', s1, s2] => do
    if sep = 'T' ∨ sep = ' ' then
      let y ← num4 y1 y2 y3 y4
      let m ← num2 m1 m2
      let d ← num2 d1 d2
      let _ ← mkDate y m d
      let hh ← num2 h1 h2
      let mi ← num2 i1 i2
      let ss ← num2 s1 s2
      let _ ← mkTime hh mi ss
      pure ⟨y, m, d, hh, mi, ss⟩
    else none
  | _ => none

/-- Fuel-bounded core of substring removal (the fuel never runs out when it
starts at the list length). -/
def removeAllGo (pat : List Char) : Nat → List Char → List Char
  | 0, l => l
  | _ + 1, [] => []
  | fuel + 1, c :: rest =>
    if pat ≠ [] ∧ pat.isPrefixOf (c :: rest) then
      removeAllGo pat fuel ((c :: rest).drop pat.length)
    else c :: removeAllGo pat fuel rest

/-- Python `str.replace(pat, "")` for a non-empty pattern: removes every
(left-to-right, non-overlapping) occurrence of `pat`. -/
def removeAllSub (pat : List Char) (l : List Char) : List Char :=
  removeAllGo pat l.length l

/-- The timezone-suffix cleaning in `is_forbidden_activity_date`:
`dt.replace("Z", "").replace("+00:00", "")`. -/
def cleanTZ (l : List Char) : List Char :=
  removeAllSub "+00:00".data (removeAllSub ['Z'] l)

/-- The legacy sentinel values treated as absent dates. -/
def zeroSentinels : List String := ["0000-00-00", "0000-00-00 00:00:00"]

/-- Embedding of `is_forbidden_activity_date` (src/main.py:831-861) on the
string values `_reconcile` feeds it (empty cells are passed as `None`).
Returns `true` exactly when the cleaned value parses and is strictly later
than `now`; missing, sentinel and unparseable values fail open. -/
def is_forbidden_activity_date (s : String) (now : PDT) : Bool :=
  if s = "" then false
  else if s ∈ zeroSentinels then false
  else
    match fromisoformat (cleanTZ s.data) with
    | none => false
    | some d => pdtLt now d

/-- Day number of a date (proleptic Gregorian, Julian-day style); used to
express the claimed trailing exclusion window. -/
def dayNumber (p : PDT) : Int :=
  let y : Int := if p.m ≤ 2 then (p.y : Int) - 1 else (p.y : Int)
  let m : Int := if p.m ≤ 2 then (p.m : Int) + 12 else (p.m : Int)
  365 * y + y / 4 - y / 100 + y / 400 + (153 * (m + 1)) / 5 + (p.d : Int)

/- ================== fuzzy similarity (rapidfuzz model) ================== -/

/-- Fuel-bounded core of `str.split()` (the fuel never runs out when it
starts at the list length). -/
def splitWsGo : Nat → List Char → List (List Char)
  | 0, _ => []
  | _ + 1, [] => []
  | fuel + 1, c :: rest =>
    if isPyWs c then splitWsGo fuel rest
    else (c :: rest.takeWhile (fun x => !isPyWs x)) :: splitWsGo fuel (rest.dropWhile (fun x => !isPyWs x))

/-- Python `str.split()`: maximal non-whitespace runs, in order. -/
def splitWs (l : List Char) : List (List Char) := splitWsGo l.length l

/-- Non-strict code-point lexicographic order, for Python `sorted`. -/
def lexLe (a b : List Char) : Bool := !lexLt b a

/-- The token preparation of `fuzz.token_sort_ratio`: split on whitespace,
sort the tokens, join with single spaces.  (`fuzz.default_processor` is
reassigned at src/main.py:17 to the identity, and `process.extractOne` is
called without a processor, so no lowercasing happens here.) -/
def tokenSortPrep (l : List Char) : List Char :=
  List.intercalate [' '] (List.insertionSort (fun a b => lexLe a b = true) (splitWs l))

/-- Fuel-bounded longest-common-subsequence length (the fuel never runs out
when it starts at the sum of the lengths). -/
def lcsGo : Nat → List Char → List Char → Nat
  | 0, _, _ => 0
  | _ + 1, [], _ => 0
  | _ + 1, _ :: _, [] => 0
  | fuel + 1, a :: as, b :: bs =>
    if a = b then 1 + lcsGo fuel as bs
    else max (lcsGo fuel (a :: as) bs) (lcsGo fuel as (b :: bs))

/-- Length of a longest common subsequence, the basis of the normalized
indel similarity `2·lcs/(|a|+|b|)` that `fuzz.ratio` reports. -/
def lcsLen (a b : List Char) : Nat := lcsGo (a.length + b.length) a b

/-- A similarity score as the exact rational `num/den` on the 0–100 scale
(`den` is always positive).  rapidfuzz returns this value as a float; the
comparisons the service performs on it are modelled exactly. -/
structure FScore where
  num : Nat
  den : Nat
deriving DecidableEq, Repr

/-- Embedding of `fuzz.token_sort_ratio`: `100 · (2·lcs) / (len1+len2)` on
the token-sorted strings, with the empty-vs-empty case scoring 100. -/
def token_sort_ratio (a b : List Char) : FScore :=
  let a2 := tokenSortPrep a
  let b2 := tokenSortPrep b
  if a2.length + b2.length = 0 then ⟨100, 1⟩
  else ⟨200 * lcsLen a2 b2, a2.length + b2.length⟩

/-- Comparison `score ≥ t` against an integer threshold. -/
def fGeConst (s : FScore) (t : Nat) : Bool := t * s.den ≤ s.num

/-- Strict comparison between two scores. -/
def fGt (a b : FScore) : Bool := b.num * a.den < a.num * b.den

/-- Embedding of `process.extractOne(q, choices, scorer=fuzz.token_sort_ratio)`:
the first choice attaining the maximal score. -/
def extractOne (q : List Char) (choices : List (List Char)) : Option (List Char × FScore) :=
  choices.foldl
    (fun acc c =>
      match acc with
      | none => some (c, token_sort_ratio q c)
      | some (b, s) =>
        if fGt (token_sort_ratio q c) s then some (c, token_sort_ratio q c)
        else some (b, s))
    none

/-- The per-row body of reconcile rule 3 (src/main.py:3229-3255): normalize
the organization name of the record, look up its 2-character blocking bucket,
keep reference names within length tolerance 4, score with
`token_sort_ratio`, drop the row when the best score reaches 95. -/
def fuzzy_removes (buckets : List (String × List String)) (orgname : String) : Bool :=
  let norm := normalize_name orgname
  if norm = "" then false
  else
    match buckets.lookup (bucket_key norm) with
    | none => false
    | some bucket =>
      if bucket = [] then false
      else
        let near := bucket.filter
          (fun n => ((n.data.length : Int) - (norm.data.length : Int)).natAbs ≤ 4)
        match extractOne norm.data (near.map String.data) with
        | none => false
        | some (_, score) => fGeConst score 95

/-- Replace-or-append update of an association list (Python dict update). -/
def updateAssoc (k : String) (v : List String) : List (String × List String) → List (String × List String)
  | [] => [(k, v)]
  | (k2, v2) :: rest => if k2 = k then (k, v) :: rest else (k2, v2) :: updateAssoc k v rest

/-- Loop body of `_fetch_org_names_for_filter_capped` (src/main.py:1921-1964)
over the streamed organization names: bucket the RAW name under the key of
its normalized form, skipping empty normalizations, full buckets and
duplicates, and stop once `cap_limit` names are collected. -/
def fonGo (cap_bucket cap_limit : Nat) : List String → List (String × List String) → Nat → List (String × List String)
  | [], acc, _ => acc
  | nm :: rest, acc, total =>
    let norm := normalize_name nm
    if norm = "" then fonGo cap_bucket cap_limit rest acc total
    else
      let b := bucket_key norm
      let bucket := (acc.lookup b).getD []
      if cap_bucket ≤ bucket.length then fonGo cap_bucket cap_limit rest acc total
      else if nm ∈ bucket then fonGo cap_bucket cap_limit rest acc total
      else
        let acc2 := updateAssoc b (bucket ++ [nm]) acc
        if cap_limit ≤ total + 1 then acc2
        else fonGo cap_bucket cap_limit rest acc2 (total + 1)

/-- Embedding of `_fetch_org_names_for_filter_capped`, abstracting the three
filter streams into the concatenated list of organization names they yield
(argument order as in the source: total cap, per-bucket cap). -/
def fetch_org_names_for_filter_capped (names : List String) (cap_limit cap_bucket : Nat) :
    List (String × List String) :=
  fonGo cap_bucket cap_limit names [] 0

/- ================= resilient request executors (4.2) ================= -/

/-- The observable outcome of one attempt: an HTTP status, or a transport /
timeout exception. -/
inductive Attempt where
  | st (code : Nat)
  | exc
deriving DecidableEq, Repr

/-- Result of a retry loop: the returned status (or `none` when the loop
raised `RuntimeError`), the number of attempts performed, and the number of
backoff sleeps performed. -/
structure RunRes where
  ret : Option Nat
  attempts : Nat
  sleeps : Nat
deriving DecidableEq, Repr

/-- Loop of `pd_get_with_retry` (src/main.py:313-409).  `script` supplies
the outcome of each attempt in order (an exhausted script behaves like a
transport exception); `budget` abstracts the wall-clock check
`(time.monotonic() - t0) > max_total_time` at the top of each attempt.
The first argument is the number of attempts still allowed (`retries`
initially), mirroring `for attempt in range(1, retries + 1)`.  Statuses 200
and 400/401/403/404 return at once; 429/5xx and every other non-200 status,
as well as exceptions, sleep and retry. -/
def pd_get_loop (budget : Nat → Bool) : Nat → List Attempt → Nat → Nat → RunRes
  | 0, _, attempt, sleeps => ⟨none, attempt - 1, sleeps⟩
  | rem + 1, script, attempt, sleeps =>
    if budget attempt then ⟨none, attempt - 1, sleeps⟩
    else
      match script with
      | [] => pd_get_loop budget rem [] (attempt + 1) (sleeps + 1)
      | .exc :: rest => pd_get_loop budget rem rest (attempt + 1) (sleeps + 1)
      | .st c :: rest =>
        if c = 200 then ⟨some 200, attempt, sleeps⟩
        else if c = 400 ∨ c = 401 ∨ c = 403 ∨ c = 404 then ⟨some c, attempt, sleeps⟩
        else pd_get_loop budget rem rest (attempt + 1) (sleeps + 1)

/-- Embedding of `pd_get_with_retry` run against a scripted sequence of
attempt outcomes. -/
def pd_get_with_retry (budget : Nat → Bool) (retries : Nat) (script : List Attempt) : RunRes :=
  pd_get_loop budget retries script 1 0

/-- Loop of `pd_request_with_retry` (src/main.py:413-502), the generic write
wrapper: 2xx returns at once, 400/401/403/404/409/422 return at once,
everything else sleeps and retries. -/
def pd_request_loop (budget : Nat → Bool) : Nat → List Attempt → Nat → Nat → RunRes
  | 0, _, attempt, sleeps => ⟨none, attempt - 1, sleeps⟩
  | rem + 1, script, attempt, sleeps =>
    if budget attempt then ⟨none, attempt - 1, sleeps⟩
    else
      match script with
      | [] => pd_request_loop budget rem [] (attempt + 1) (sleeps + 1)
      | .exc :: rest => pd_request_loop budget rem rest (attempt + 1) (sleeps + 1)
      | .st c :: rest =>
        if 200 ≤ c ∧ c ≤ 299 then ⟨some c, attempt, sleeps⟩
        else if c = 400 ∨ c = 401 ∨ c = 403 ∨ c = 404 ∨ c = 409 ∨ c = 422 then
          ⟨some c, attempt, sleeps⟩
        else pd_request_loop budget rem rest (attempt + 1) (sleeps + 1)

/-- Embedding of `pd_request_with_retry` run against a scripted sequence of
attempt outcomes. -/
def pd_request_with_retry (budget : Nat → Bool) (retries : Nat) (script : List Attempt) : RunRes :=
  pd_request_loop budget retries script 1 0

/- ================= cursor pagination iterators (4.3) ================= -/

/-- One page served by the scripted remote: an HTTP status, its
record ids, and the advertised next cursor (`none` models a missing or
falsy `next_cursor`). -/
structure PersonsPage where
  status : Nat
  ids : List Nat
  next : Option String
deriving Repr

/-- Result of the persons pagination loop: collected person dicts (by id)
and the number of pages requested. -/
structure PagesRes where
  out : List Nat
  pages : Nat
deriving DecidableEq, Repr

/-- Loop of `fetch_persons_by_filter_id_v2` (src/main.py:1139-1255) with
`max_pages=None`, driven by a scripted server `srv` mapping the request
cursor to a page.  Mirrors, in order: the HTTP-status break, the per-page
id dedup, the no-growth brake (`max_empty_growth` consecutive pages with no
new ids), the missing-cursor break, the `next_cursor == cursor` brake and
the repeated-cursor brake.  `fuel` bounds the recursion; running out of
fuel yields `none` (the Python loop would still be running). -/
def fetchPersonsGo (srv : Option String → PersonsPage) (maxEmptyGrowth : Nat) :
    Nat → Option String → List String → List Nat → Nat → Nat → Option PagesRes
  | 0, _, _, _, _, _ => none
  | fuel + 1, cursor, seenCursors, out, streak, pages =>
    let p := srv cursor
    if p.status ≠ 200 then some ⟨out, pages + 1⟩
    else
      let fresh := (p.ids.filter (fun i => decide (i ∉ out))).dedup
      let out2 := out ++ fresh
      let streak2 := if fresh.length = 0 then streak + 1 else 0
      if maxEmptyGrowth ≤ streak2 then some ⟨out2, pages + 1⟩
      else
        match p.next with
        | none => some ⟨out2, pages + 1⟩
        | some nxt =>
          if cursor = some nxt then some ⟨out2, pages + 1⟩
          else if nxt ∈ seenCursors then some ⟨out2, pages + 1⟩
          else fetchPersonsGo srv maxEmptyGrowth fuel (some nxt) (nxt :: seenCursors) out2 streak2 (pages + 1)

/-- Embedding of `fetch_persons_by_filter_id_v2` against a scripted server,
with the default `max_empty_growth = 2`. -/
def fetch_persons_by_filter_id_v2 (srv : Option String → PersonsPage) (fuel : Nat) : Option PagesRes :=
  fetchPersonsGo srv 2 fuel none [] [] 0 0

/-- One page served to the organizations streamer: status, organization
names, next cursor. -/
structure OrgsPage where
  status : Nat
  names : List String
  next : Option String
deriving Repr

/-- Loop of `stream_organizations_by_filter` (src/main.py:1663-1708), which
accumulates the non-blank names of every page.  Unlike the persons loop it
keeps NO record of previously seen cursors: its only exits are a non-200
status, an empty data page, or a falsy next cursor.  `fuel` bounds the
recursion; `none` means the Python loop is still running after `fuel`
pages. -/
def streamOrgsGo (srv : Option String → OrgsPage) :
    Nat → Option String → List String → Option (List String)
  | 0, _, _ => none
  | fuel + 1, cursor, acc =>
    let p := srv cursor
    if p.status ≠ 200 then some acc
    else if p.names = [] then some acc
    else
      let acc2 := acc ++ p.names.filter (fun n => stripWs n.data ≠ [])
      match p.next with
      | none => some acc2
      | some nxt => streamOrgsGo srv fuel (some nxt) acc2

/-- Embedding of `stream_organizations_by_filter` against a scripted
server. -/
def stream_organizations_by_filter (srv : Option String → OrgsPage) (fuel : Nat) : Option (List String) :=
  streamOrgsGo srv fuel none []

/- ============== dynamic values & enrichment patch (4.5) ============== -/

/-- Dynamic JSON-ish values as handled by the merge/enrichment code. -/
inductive V where
  | vnull
  | vstr (s : String)
  | vint (i : Int)
  | vlist (xs : List V)
  | vdict (kvs : List (String × V))

/-- Python `merged != w_labels`, comparing the freshly computed list of
integer label ids with the winner value elementwise (an integer equals a
non-integer value only never; no floats or booleans occur in the modelled
payloads). -/
def eqLabelList : List Int → List V → Bool
  | [], [] => true
  | i :: is, .vint j :: vs => i == j && eqLabelList is vs
  | _, _ => false

/-- Python truthiness of a value. -/
def vTruthy : V → Bool
  | .vnull => false
  | .vstr s => s ≠ ""
  | .vint i => i ≠ 0
  | .vlist xs => !xs.isEmpty
  | .vdict kvs => !kvs.isEmpty

/-- Python `a or b`. -/
def pyOr (a b : V) : V := if vTruthy a then a else b

/-- Python `d.get(k)` on a dict value (`None` when missing); the code only
calls `.get` on values it has just guarded to be dicts. -/
def vGet (v : V) (k : String) : V :=
  match v with
  | .vdict kvs => (kvs.lookup k).getD .vnull
  | _ => .vnull

/-- Python `k in d` (dict key membership). -/
def keyIn (v : V) (k : String) : Bool :=
  match v with
  | .vdict kvs => (kvs.lookup k).isSome
  | _ => false

/-- Embedding of `_v2_is_empty` (src/main.py:536-544). -/
def v2_is_empty : V → Bool
  | .vnull => true
  | .vstr s => stripWs s.data = []
  | .vlist xs => xs.length = 0
  | .vdict kvs => kvs.length = 0
  | .vint _ => false

/-- Python `str(x).isdigit()` on the label entries. -/
def strIsDigit : V → Bool
  | .vint i => 0 ≤ i
  | .vstr s => s.data ≠ [] && s.data.all (fun c => 48 ≤ c.toNat && c.toNat ≤ 57)
  | _ => false

/-- Numeric value of a digit string. -/
def digitsToNat (l : List Char) : Nat := l.foldl (fun a c => a * 10 + (c.toNat - 48)) 0

/-- Python `int(x)` on the label entries that pass `strIsDigit`. -/
def vToInt : V → Int
  | .vint i => i
  | .vstr s => (digitsToNat s.data : Int)
  | _ => 0

/-- Insertion into a strictly sorted deduplicated list of integers. -/
def insSorted (x : Int) : List Int → List Int
  | [] => [x]
  | y :: ys =>
    if x < y then x :: y :: ys
    else if x = y then y :: ys
    else y :: insSorted x ys

/-- Python `sorted({...})`: the strictly increasing enumeration of a set. -/
def sortedDedupInt (xs : List Int) : List Int := xs.foldr insSorted []

/-- Dict assignment `d[k] = v`: replace the first binding or append. -/
def updAssocV : List (String × V) → String → V → List (String × V)
  | [], k, v => [(k, v)]
  | (k2, v2) :: rest, k, v =>
    if k2 = k then (k, v) :: rest else (k2, v2) :: updAssocV rest k v

/-- The integers extracted from a label array: `int(x) for x in ... if
str(x).isdigit()`. -/
def labelInts (xs : List V) : List Int := (xs.filter strIsDigit).map vToInt

/-- The label block of `build_org_enrichment_patch_v2` (src/main.py:560-566):
the sorted union of both integer label sets, emitted when it differs from
the winner value. -/
def patchLabels (winner loser : V) : List (String × V) :=
  match pyOr (vGet winner "label_ids") (.vlist []), pyOr (vGet loser "label_ids") (.vlist []) with
  | .vlist ws, .vlist ls =>
    let merged := sortedDedupInt (labelInts (ws ++ ls))
    if !(eqLabelList merged ws) then
      [("label_ids", V.vlist (merged.map V.vint))]
    else []
  | _, _ => []

/-- The address block (src/main.py:568-573): the loser address object,
emitted only when the winner has no `address.value` and the loser has
one. -/
def patchAddress (winner loser : V) : List (String × V) :=
  match pyOr (vGet winner "address") (.vdict []), pyOr (vGet loser "address") (.vdict []) with
  | .vdict wa, .vdict la =>
    if v2_is_empty ((wa.lookup "value").getD .vnull)
        && !v2_is_empty ((la.lookup "value").getD .vnull) then
      [("address", V.vdict la)]
    else []
  | _, _ => []

/-- The scalar block (src/main.py:575-578): loser values of the three usual
organization fields, only where the winner value is blank. -/
def patchScalars (winner loser : V) : List (String × V) :=
  (["cc_email", "owner_id", "visible_to"].filter
    (fun k => keyIn loser k && v2_is_empty (vGet winner k) && !v2_is_empty (vGet loser k))).map
    (fun k => (k, vGet loser k))

/-- One step of the custom-fields merge loop: fill the entry when the
current value is blank and the loser value is not. -/
def cfStep (st : List (String × V) × Bool) (kv : String × V) : List (String × V) × Bool :=
  if v2_is_empty ((st.1.lookup kv.1).getD .vnull) && !v2_is_empty kv.2 then
    (updAssocV st.1 kv.1 kv.2, true)
  else st

/-- The custom-fields block (src/main.py:580-592): the winner custom-fields
dict with blank entries filled from the loser, emitted when at least one
entry was filled. -/
def patchCustom (winner loser : V) : List (String × V) :=
  match pyOr (vGet winner "custom_fields") (.vdict []), pyOr (vGet loser "custom_fields") (.vdict []) with
  | .vdict wcf, .vdict lcf =>
    if !lcf.isEmpty then
      let res := lcf.foldl cfStep (wcf, false)
      if res.2 then [("custom_fields", V.vdict res.1)] else []
    else []
  | _, _ => []

/-- Embedding of `build_org_enrichment_patch_v2` (src/main.py:547-594).
The patch is a dict in insertion order: union of the label sets when that
changes anything, the loser address object when the winner
`address.value` is blank, each of the three scalar fields only when the
winner value is blank, and the winner custom-fields object with blank
entries filled from the loser when at least one entry was filled. -/
def build_org_enrichment_patch_v2 (winner loser : V) : List (String × V) :=
  patchLabels winner loser ++ patchAddress winner loser ++
    patchScalars winner loser ++ patchCustom winner loser

/-- Applying a PATCH body to the winner record (the partial update the remote server performs: each patch key replaces the corresponding field). -/
def applyPatch (winner : V) (patch : List (String × V)) : V :=
  match winner with
  | .vdict kvs => .vdict (patch.foldl (fun acc kv => updAssocV acc kv.1 kv.2) kvs)
  | _ => winner

/- ==================== merge execution model (4.5) ==================== -/

/-- Result of one `pd_get_json_with_retry` call: final status and payload. -/
structure FetchRes where
  status : Nat
  payload : V

/-- The outbound side effects the merge can issue. -/
inductive MAction where
  | patchWinner (body : List (String × V))
  | patchPerson (id : Nat)
  | patchDeal (id : Nat)
  | deleteLoser

/-- Scripted environment for one merge run: fetch results for both
organizations, the outcome of the winner PATCH, the persons and deals that
reference the loser (already streamed), the per-entity reassignment
outcomes, and the delete outcome. -/
structure MergeEnv where
  winnerRes : FetchRes
  loserRes : FetchRes
  patchStatus : Nat
  persons : List Nat
  deals : List Nat
  personPatchStatus : Nat → Nat
  dealPatchStatus : Nat → Nat
  deleteStatus : Nat

/-- The summary dict built by `merge_organizations_v2_only`. -/
structure MSummary where
  winner_patched : Bool
  winner_patch_keys : List String
  persons_moved : Nat
  deals_moved : Nat
  loser_deleted : Bool
  dry_run : Bool
deriving DecidableEq, Repr

/-- Ascending sort of key strings, Python `sorted(list(...))`. -/
def sortStrings (l : List String) : List String :=
  List.insertionSort (fun a b => lexLe a.data b.data = true) l

/-- Python `(payload.get("data") or {}) if isinstance(payload, dict) else {}`. -/
def dataOf (p : V) : V :=
  match p with
  | .vdict _ => pyOr (vGet p "data") (.vdict [])
  | _ => .vdict []

/-- Embedding of `merge_organizations_v2_only` (src/main.py:645-795) over a
scripted environment.  Returns the summary and the ordered list of issued
write requests, or the `RuntimeError` message. -/
def merge_organizations_v2_only (env : MergeEnv)
    (move_persons move_deals delete_loser dry_run : Bool) :
    Except String (MSummary × List MAction) :=
  if env.winnerRes.status ≠ 200 ∨ ¬ vTruthy env.winnerRes.payload then
    .error "winner org not found/visible"
  else if env.loserRes.status = 404 then
    .ok (⟨false, [], 0, 0, true, dry_run⟩, [])
  else if env.loserRes.status ≠ 200 ∨ ¬ vTruthy env.loserRes.payload then
    .error "loser org not found/visible"
  else
    let winner := dataOf env.winnerRes.payload
    let loser := dataOf env.loserRes.payload
    let patch := build_org_enrichment_patch_v2 winner loser
    let keys := sortStrings (patch.map (·.1))
    if !patch.isEmpty && !dry_run && env.patchStatus != 200 then
      .error "PATCH winner failed"
    else
      let acts1 : List MAction := if !patch.isEmpty && !dry_run then [.patchWinner patch] else []
      let pmoved := if move_persons then
          (if dry_run then env.persons.length
           else (env.persons.filter (fun pid => env.personPatchStatus pid = 200)).length)
        else 0
      let acts2 : List MAction :=
        if move_persons && !dry_run then env.persons.map MAction.patchPerson else []
      let dmoved := if move_deals then
          (if dry_run then env.deals.length
           else (env.deals.filter (fun did => env.dealPatchStatus did = 200)).length)
        else 0
      let acts3 : List MAction :=
        if move_deals && !dry_run then env.deals.map MAction.patchDeal else []
      if delete_loser then
        if dry_run then
          .ok (⟨!patch.isEmpty, keys, pmoved, dmoved, true, dry_run⟩, acts1 ++ acts2 ++ acts3)
        else if env.deleteStatus = 200 ∨ env.deleteStatus = 204 ∨ env.deleteStatus = 404 then
          .ok (⟨!patch.isEmpty, keys, pmoved, dmoved, true, dry_run⟩,
            acts1 ++ acts2 ++ acts3 ++ [.deleteLoser])
        else .error "DELETE loser failed"
      else
        .ok (⟨!patch.isEmpty, keys, pmoved, dmoved, false, dry_run⟩, acts1 ++ acts2 ++ acts3)

/- ==================== job / progress tracker (4.7) ==================== -/

/-- The mutable `Job` state (src/main.py:3617-3676), restricted to the
fields the tracker contract mentions. -/
structure Job where
  phase : String
  percent : Int
  detail : String
  last_update_ms : Nat
  heartbeat : Nat
  done : Bool
  error : Option String
deriving DecidableEq, Repr

/-- `Job.__init__` at wall-clock time `now_ms`. -/
def Job.init (now_ms : Nat) : Job :=
  ⟨"Warten …", 0, "", now_ms, 0, false, none⟩

/-- `Job._touch`: refresh the heartbeat timestamp and counter. -/
def Job.touch (j : Job) (now_ms : Nat) : Job :=
  { j with last_update_ms := now_ms, heartbeat := j.heartbeat + 1 }

/-- The `phase` property setter: coerce `None` to `""`, then `_touch`. -/
def Job.setPhase (j : Job) (v : Option String) (now_ms : Nat) : Job :=
  ({ j with phase := v.getD "" }).touch now_ms

/-- The `percent` property setter: `int(v or 0)`, then `_touch`. -/
def Job.setPercent (j : Job) (v : Option Int) (now_ms : Nat) : Job :=
  ({ j with percent := v.getD 0 }).touch now_ms

/-- The `detail` property setter: coerce `None` to `""`, then `_touch`. -/
def Job.setDetail (j : Job) (v : Option String) (now_ms : Nat) : Job :=
  ({ j with detail := v.getD "" }).touch now_ms

/-- Setting the error string: `job.error = v` is a PLAIN attribute
assignment in the source — the class defines no `error` setter property, so
nothing else happens. -/
def Job.setError (j : Job) (v : String) : Job :=
  { j with error := some v }

/-- Marking the job done: `job.done = True` is likewise a plain attribute
assignment. -/
def Job.markDone (j : Job) : Job :=
  { j with done := true }

/- ================= reconciliation rule pipeline (4.6) ================= -/

/-- One row of the `nf_master_final` table as `_reconcile` sees it: every
cell has already been flattened to a string by the `flatten` pass
(src/main.py:3157-3171). -/
structure RRow where
  pid : String
  orgid : String
  orgname : String
  orgtype : String
  nextAct : String
  vorname : String
  nachname : String
deriving DecidableEq, Repr

/-- One appended delete-log row, keyed by its stable reason code and the
subject row; the persisted columns (`Kontakt ID`, `Name`, `Organisation
ID`, ...) are all projections of the subject row. -/
structure DropEntry where
  reason : String
  row : RRow
deriving DecidableEq, Repr

/-- Python `str.strip()` on a string value. -/
def pyStrip (s : String) : String := ⟨stripWs s.data⟩

/-- The shared shape of reconcile rules 1, 2, 3 and 4: compute the removal
mask, append one log entry per removed row (in row order), and keep the
complement (`df = df[~mask]`). -/
def ruleSplit (reason : String) (p : RRow → Bool) (rows : List RRow) :
    List RRow × List DropEntry :=
  (rows.filter (fun r => !p r), (rows.filter p).map (fun r => ⟨reason, r⟩))

/-- The `_pid_sort` column: `pd.to_numeric(..., errors="coerce")` on the
person id with `NaN` filled by `10^18` (person ids are decimal integer
strings where numeric at all). -/
def pidNum (pid : String) : Int :=
  match pid.data with
  | [] => 10 ^ 18
  | '-' :: rest =>
    if rest ≠ [] ∧ rest.all (fun c => 48 ≤ c.toNat && c.toNat ≤ 57) then
      -(digitsToNat rest : Int)
    else 10 ^ 18
  | l =>
    if l.all (fun c => 48 ≤ c.toNat && c.toNat ≤ 57) then (digitsToNat l : Int)
    else 10 ^ 18

/-- The sort key of rule 5: organization id string ascending, then numeric
person id ascending. -/
def rowLe (a b : RRow) : Bool :=
  if lexLt a.orgid.data b.orgid.data then true
  else if lexLt b.orgid.data a.orgid.data then false
  else pidNum a.pid ≤ pidNum b.pid

/-- The sort key as a decidable relation, for the stable sort. -/
def rowLeP (a b : RRow) : Prop := rowLe a b = true

instance : DecidableRel rowLeP := fun a b => instDecidableEqBool (rowLe a b) true

/-- Stable sort by the rule-5 key (`sort_values(kind="mergesort")`; a
output of a stable sort is unique, so insertion sort embeds it exactly). -/
def sortRows (rows : List RRow) : List RRow := List.insertionSort rowLeP rows

/-- Pandas `groupby("_orgid_sort").cumcount()` on a row list: each row
paired with the number of earlier rows sharing its organization id. -/
def cumIdxGo : List RRow → (String → Nat) → List (RRow × Nat)
  | [], _ => []
  | r :: rest, cnt =>
    (r, cnt r.orgid) :: cumIdxGo rest (fun o => if o = r.orgid then cnt o + 1 else cnt o)

/-- Cumulative per-organization indices of a row list. -/
def cumIdx (rows : List RRow) : List (RRow × Nat) := cumIdxGo rows (fun _ => 0)

/-- Rule 5 (src/main.py:3280-3292): sort by (organization id, numeric
person id), keep the first `limit` rows per organization id, drop and log
the rest. -/
def capStep (limit : Nat) (rows : List RRow) : List RRow × List DropEntry :=
  let entries := cumIdx (sortRows rows)
  ((entries.filter (fun e => decide (e.2 < limit))).map (·.1),
   ((entries.filter (fun e => !decide (e.2 < limit))).map (·.1)).map
     (fun r => ⟨"per_org_limit", r⟩))

/-- Embedding of the rule pipeline of `_reconcile` (src/main.py:3186-3314)
on a non-empty loaded table.  `orgNames` abstracts the organization-name
stream consumed by `_fetch_org_names_for_filter_capped`, `suspectIds` the
id stream of filters 1216/1708; `capL`/`capB` are `MAX_ORG_NAMES` /
`MAX_ORG_BUCKET` and `limit` is `PER_ORG_DEFAULT_LIMIT`.  Returns the ready
set, the delete log and the summary counts in their written order. -/
def reconcile (now : PDT) (orgNames : List String) (capL capB : Nat)
    (suspectIds : List String) (limit : Nat) (rows : List RRow) :
    List RRow × List DropEntry × List (String × Nat) :=
  let s1 := ruleSplit "org_art_not_empty" (fun r => pyStrip r.orgtype ≠ "") rows
  let s2 := ruleSplit "forbidden_activity_date"
    (fun r => is_forbidden_activity_date r.nextAct now) s1.1
  let buckets := fetch_org_names_for_filter_capped orgNames capL capB
  let s3 := ruleSplit "org_match_95" (fun r => fuzzy_removes buckets r.orgname) s2.1
  let s4 := ruleSplit "person_id_match" (fun r => suspectIds.contains r.pid) s3.1
  let s5 := capStep limit s4.1
  let log := s1.2 ++ s2.2 ++ s3.2 ++ s4.2 ++ s5.2
  let cnt := fun reason => log.countP (fun e => e.reason == reason)
  (s5.1, log,
    [("per_org_limit", cnt "per_org_limit"),
     ("org_art_not_empty", cnt "org_art_not_empty"),
     ("forbidden_activity_date", cnt "forbidden_activity_date"),
     ("org_match_95", cnt "org_match_95"),
     ("person_id_match", cnt "person_id_match")])

/- =============== spec-side predicates used in statements =============== -/

/-- No two adjacent spaces (collapsed-whitespace check). -/
def noDbl : List Char → Bool
  | a :: b :: rest => !(a == ' ' && b == ' ') && noDbl (b :: rest)
  | _ => true

/-- Neither end of the character list is a space. -/
def noEdgeSpace (l : List Char) : Bool :=
  (l.head?.getD 'a') != ' ' && (l.getLast?.getD 'a') != ' '

/-- A scripted remote that always repeats cursor `"A"` with a non-empty
organizations page: the pathological input of the loop-guard property. -/
def loopOrgSrv : Option String → OrgsPage := fun _ => ⟨200, ["X"], some "A"⟩

/-- The same pathological cursor-repeating remote, for the persons
iterator. -/
def loopPersonSrv : Option String → PersonsPage := fun _ => ⟨200, [1], some "A"⟩

/-- The current `address.value` of the winner, as the enrichment code reads it
(`(winner.get("address") or {}).get("value")`). -/
def addrValue (org : V) : V :=
  vGet (pyOr (vGet org "address") (.vdict [])) "value"

/-- The custom-fields dict of an organization as the enrichment code reads
it (empty when `custom_fields` is missing, falsy or not a dict). -/
def customFieldsOf (org : V) : List (String × V) :=
  match pyOr (vGet org "custom_fields") (.vdict []) with
  | .vdict kvs => kvs
  | _ => []

/-- The label array of an organization as the enrichment code reads it
(empty when missing, falsy or not a list). -/
def labelsOf (org : V) : List V :=
  match pyOr (vGet org "label_ids") (.vlist []) with
  | .vlist xs => xs
  | _ => []

/- ======================= theorems: job tracker ======================= -/

/-- C8 (counterexample): setting the error string on a fresh job neither
increments the heartbeat nor refreshes `last_update_ms` (and the same holds
for marking it done), because `error` and `done` are plain attributes with
no touching property setter. -/
theorem job_error_mutation_no_heartbeat :
    ((Job.init 5).setError "boom").heartbeat = 0 ∧
    ((Job.init 5).setError "boom").last_update_ms = 5 ∧
    ((Job.init 5).markDone).heartbeat = 0 ∧
    ((Job.init 5).markDone).last_update_ms = 5 ∧
    ¬ ((Job.init 5).setError "boom").heartbeat = (Job.init 5).heartbeat + 1 := by
  decide

/-- C8 (amended): the `phase`, `percent` and `detail` property setters each
increment the heartbeat by exactly one and refresh `last_update_ms`; the
plain attribute writes that set `error` and mark the job `done` leave both
heartbeat fields unchanged. -/
theorem job_heartbeat_discipline (j : Job) (vs vd : Option String) (vp : Option Int)
    (e : String) (now : Nat) :
    (j.setPhase vs now).heartbeat = j.heartbeat + 1 ∧
    (j.setPhase vs now).last_update_ms = now ∧
    (j.setPercent vp now).heartbeat = j.heartbeat + 1 ∧
    (j.setPercent vp now).last_update_ms = now ∧
    (j.setDetail vd now).heartbeat = j.heartbeat + 1 ∧
    (j.setDetail vd now).last_update_ms = now ∧
    (j.setError e).heartbeat = j.heartbeat ∧
    (j.setError e).last_update_ms = j.last_update_ms ∧
    (j.setError e).error = some e ∧
    (j.markDone).heartbeat = j.heartbeat ∧
    (j.markDone).last_update_ms = j.last_update_ms ∧
    (j.markDone).done = true :=
  ⟨rfl, rfl, rfl, rfl, rfl, rfl, rfl, rfl, rfl, rfl, rfl, rfl⟩

/- =================== theorems: request executors =================== -/

/-- C3 (counterexample): the GET executor does NOT return a 422 response
immediately — on the script `[422, 200]` it sleeps once, retries, and
returns the 200 of attempt two instead of the 422 of attempt one. -/
theorem pd_get_retries_422 :
    pd_get_with_retry (fun _ => false) 8 [.st 422, .st 200] = ⟨some 200, 2, 1⟩ ∧
    pd_get_with_retry (fun _ => false) 8 [.st 422, .st 200] ≠ ⟨some 422, 1, 0⟩ := by
  decide

/-- C3 (amended): whenever an attempt is reached (retry budget not yet
exhausted, total-time budget not hit) and observes a client-error status,
the write executor returns it at once — with no further attempt and no
backoff sleep — for all of 400/401/403/404/409/422, while the GET executor
does so only for 400/401/403/404 and instead sleeps and retries on 409 and
422. -/
theorem client_error_immediate_return (budget : Nat → Bool) (rem attempt sleeps : Nat)
    (rest : List Attempt) (c : Nat) (hb : budget attempt = false) :
    (c = 400 ∨ c = 401 ∨ c = 403 ∨ c = 404 ∨ c = 409 ∨ c = 422 →
      pd_request_loop budget (rem + 1) (.st c :: rest) attempt sleeps = ⟨some c, attempt, sleeps⟩) ∧
    (c = 400 ∨ c = 401 ∨ c = 403 ∨ c = 404 →
      pd_get_loop budget (rem + 1) (.st c :: rest) attempt sleeps = ⟨some c, attempt, sleeps⟩) ∧
    (c = 409 ∨ c = 422 →
      pd_get_loop budget (rem + 1) (.st c :: rest) attempt sleeps =
        pd_get_loop budget rem rest (attempt + 1) (sleeps + 1)) := by
  refine ⟨?_, ?_, ?_⟩
  · intro hc
    rw [pd_request_loop, hb]
    rcases hc with h | h | h | h | h | h <;> subst h <;> norm_num
  · intro hc
    rw [pd_get_loop, hb]
    rcases hc with h | h | h | h <;> subst h <;> norm_num
  · intro hc
    rw [pd_get_loop, hb]
    rcases hc with h | h <;> subst h <;> norm_num

/-- Witness for `client_error_immediate_return` at concrete inputs. -/
theorem client_error_immediate_return_witness :
    pd_request_loop (fun _ => false) 8 [.st 422, .st 200] 1 0 = ⟨some 422, 1, 0⟩ ∧
    pd_get_loop (fun _ => false) 8 [.st 404, .st 200] 1 0 = ⟨some 404, 1, 0⟩ ∧
    pd_get_loop (fun _ => false) 8 [.st 422, .st 200] 1 0 =
      pd_get_loop (fun _ => false) 7 [.st 200] 2 1 :=
  ⟨(client_error_immediate_return (fun _ => false) 7 1 0 [.st 200] 422 rfl).1
      (Or.inr (Or.inr (Or.inr (Or.inr (Or.inr rfl))))),
   (client_error_immediate_return (fun _ => false) 7 1 0 [.st 200] 404 rfl).2.1
      (Or.inr (Or.inr (Or.inr rfl))),
   (client_error_immediate_return (fun _ => false) 7 1 0 [.st 200] 422 rfl).2.2
      (Or.inr rfl)⟩

/- ====================== theorems: merge (4.5) ====================== -/

/-- C9: when the winner fetch succeeded and the loser fetch returned 404,
the merge short-circuits as already-merged: it returns a success summary
with `loser_deleted = true` and nothing else set, and issues no write
request at all (no winner patch, no person or deal reassignment, no
delete). -/
theorem merge_loser_404_short_circuit (env : MergeEnv) (mp md dl dr : Bool)
    (hw : env.winnerRes.status = 200) (hwp : vTruthy env.winnerRes.payload = true)
    (hl : env.loserRes.status = 404) :
    merge_organizations_v2_only env mp md dl dr = .ok (⟨false, [], 0, 0, true, dr⟩, []) := by
  unfold merge_organizations_v2_only
  rw [hw, hl, hwp]
  norm_num

/-- Witness for `merge_loser_404_short_circuit` at a concrete environment. -/
theorem merge_loser_404_short_circuit_witness :
    merge_organizations_v2_only
      ⟨⟨200, V.vdict [("data", V.vdict [("name", V.vstr "W")])]⟩, ⟨404, V.vnull⟩,
        200, [17], [3], (fun _ => 200), (fun _ => 200), 200⟩
      true true true false
      = .ok (⟨false, [], 0, 0, true, false⟩, []) :=
  merge_loser_404_short_circuit _ true true true false rfl rfl rfl

/- ==================== theorems: pagination (4.3) ==================== -/

/-- C7: against a remote that answers every request with a non-empty page
and the repeated cursor `"A"`, `stream_organizations_by_filter` never
terminates — it exhausts any page allowance `fuel` without reaching one of
its exit conditions, because it has no repeated-cursor or no-progress guard
— whereas `fetch_persons_by_filter_id_v2` stops after two pages on the very
same cursor script thanks to its `next_cursor == cursor` brake. -/
theorem stream_orgs_repeated_cursor_diverges :
    (∀ fuel cursor acc, streamOrgsGo loopOrgSrv fuel cursor acc = none) ∧
    fetch_persons_by_filter_id_v2 loopPersonSrv 10 = some ⟨[1], 2⟩ := by
  constructor
  · intro fuel
    induction fuel with
    | zero => intro cursor acc; rfl
    | succ n ih =>
      intro cursor acc
      rw [streamOrgsGo]
      simp only [loopOrgSrv]
      norm_num
      exact ih _ _
  · decide

/- ================= theorems: name normalization (4.4) ================= -/

/-- Characters produced by the whitespace collapse come from the input or
are the space character. -/
theorem collapseGo_mem (fuel : Nat) :
    ∀ (xs : List Char) (c : Char), c ∈ collapseGo fuel xs → c ∈ xs ∨ c = ' ' := by
  induction fuel with
  | zero => intro xs c hc; rw [collapseGo] at hc; exact Or.inl hc
  | succ n ih =>
    intro xs c hc
    match xs with
    | [] => rw [collapseGo] at hc; cases hc
    | x :: rest =>
      rw [collapseGo] at hc
      by_cases hws : isPyWs x = true
      · rw [if_pos hws] at hc
        rcases List.mem_cons.mp hc with h | h
        · exact Or.inr h
        · rcases ih _ _ h with h2 | h2
          · exact Or.inl (List.mem_cons_of_mem _ ((List.dropWhile_suffix isPyWs).subset h2))
          · exact Or.inr h2
      · rw [if_neg hws] at hc
        rcases List.mem_cons.mp hc with h | h
        · exact Or.inl (h ▸ List.mem_cons_self _ _)
        · rcases ih _ _ h with h2 | h2
          · exact Or.inl (List.mem_cons_of_mem _ h2)
          · exact Or.inr h2

/-- The head of a dropWhile result does not satisfy the predicate. -/
theorem head_dropWhile_false (p : α → Bool) (l : List α) (c : α)
    (h : (List.dropWhile p l).head? = some c) : p c = false := by
  have := List.head?_dropWhile_not p l
  rw [h] at this
  exact this

/-- The head of the collapse output is not whitespace when the head of the
input is not whitespace. -/
theorem collapseGo_head_not_ws (fuel : Nat) (xs : List Char)
    (h : ∀ c, xs.head? = some c → isPyWs c = false) :
    ∀ d, (collapseGo fuel xs).head? = some d → isPyWs d = false := by
  match fuel with
  | 0 => rw [collapseGo]; exact h
  | n + 1 =>
    match xs with
    | [] => intro d hd; rw [collapseGo] at hd; cases hd
    | x :: rest =>
      intro d hd
      rw [collapseGo] at hd
      by_cases hws : isPyWs x = true
      · exact absurd (h x rfl) (by simp [hws])
      · rw [if_neg hws] at hd
        simp only [List.head?_cons, Option.some.injEq] at hd
        subst hd
        exact Bool.eq_false_iff.mpr hws

/-- The whitespace collapse never produces two adjacent spaces. -/
theorem noDbl_collapseGo (fuel : Nat) :
    ∀ (xs : List Char), xs.length ≤ fuel → noDbl (collapseGo fuel xs) = true := by
  induction fuel with
  | zero =>
    intro xs hl
    have : xs = [] := List.length_eq_zero.mp (Nat.le_zero.mp hl)
    subst this; rfl
  | succ n ih =>
    intro xs hl
    match xs with
    | [] => rfl
    | x :: rest =>
      rw [collapseGo]
      have hlr : rest.length ≤ n := by simpa using hl
      by_cases hws : isPyWs x = true
      · rw [if_pos hws]
        have hld : (rest.dropWhile isPyWs).length ≤ n :=
          le_trans (List.IsSuffix.length_le (List.dropWhile_suffix isPyWs)) hlr
        have htail := ih _ hld
        cases hc : collapseGo n (rest.dropWhile isPyWs) with
        | nil => rfl
        | cons d t =>
          have hd : isPyWs d = false := by
            refine collapseGo_head_not_ws n _ ?_ d (by rw [hc]; rfl)
            intro c hcc
            exact head_dropWhile_false _ _ _ hcc
          rw [hc] at htail
          rw [noDbl, Bool.and_eq_true]
          refine ⟨?_, htail⟩
          have : (d == ' ') = false := by
            refine beq_eq_false_iff_ne.mpr ?_
            intro he
            subst he
            exact absurd (by rfl : isPyWs ' ' = true) (by simp [hd])
          simp [this]
      · rw [if_neg hws]
        have htail := ih _ hlr
        cases hc : collapseGo n rest with
        | nil => rfl
        | cons d t =>
          rw [hc] at htail
          rw [noDbl, Bool.and_eq_true]
          refine ⟨?_, htail⟩
          have : (x == ' ') = false := by
            refine beq_eq_false_iff_ne.mpr ?_
            intro he
            subst he
            exact hws rfl
          simp [this]

/-- `noDbl` is preserved by dropping a head element. -/
theorem noDbl_tail (a : Char) (l : List Char) (h : noDbl (a :: l) = true) :
    noDbl l = true := by
  match l with
  | [] => rfl
  | b :: t => rw [noDbl, Bool.and_eq_true] at h; exact h.2

/-- `noDbl` is preserved by `dropWhile`. -/
theorem noDbl_dropWhile (p : Char → Bool) :
    ∀ (l : List Char), noDbl l = true → noDbl (List.dropWhile p l) = true := by
  intro l
  induction l with
  | nil => intro _; rfl
  | cons a t ih =>
    intro h
    rw [List.dropWhile]
    by_cases hp : p a = true
    · rw [hp]; exact ih (noDbl_tail a t h)
    · rw [Bool.eq_false_iff.mpr hp]; exact h

/-- `noDbl` restricts to list prefixes. -/
theorem noDbl_append_left : ∀ (xs ys : List Char), noDbl (xs ++ ys) = true → noDbl xs = true
  | [], _, _ => rfl
  | [_], _, _ => rfl
  | a :: b :: t, ys, h => by
    simp only [List.cons_append] at h
    rw [noDbl, Bool.and_eq_true] at h ⊢
    exact ⟨h.1, noDbl_append_left (b :: t) ys h.2⟩

/-- C2 (counterexample): `normalize_name` does not strip legal-entity
suffixes — the token `gmbh` survives normalization, so the two spellings do
not collide. -/
theorem normalize_name_keeps_legal_suffix :
    normalize_name "Acme GmbH" = "acme gmbh" ∧ normalize_name "Acme" = "acme" ∧
    normalize_name "Acme GmbH" ≠ normalize_name "Acme" := by
  decide

/-- Shape of a stripped string: membership in the input, collapsing
preserved, and whitespace-free ends. -/
theorem stripWs_shape (t : List Char) (hnd : noDbl t = true) :
    noDbl (stripWs t) = true ∧
    (∀ d, (stripWs t).head? = some d → isPyWs d = false) ∧
    (∀ d, (stripWs t).getLast? = some d → isPyWs d = false) ∧
    (∀ c, c ∈ stripWs t → c ∈ t) := by
  have hsub1 : ∀ c, c ∈ stripWs t → c ∈ t := by
    intro c hc
    rw [stripWs, List.mem_reverse] at hc
    have hc2 := (List.dropWhile_suffix isPyWs).subset hc
    rw [List.mem_reverse] at hc2
    exact (List.dropWhile_suffix isPyWs).subset hc2
  have ha : noDbl (t.dropWhile isPyWs) = true := noDbl_dropWhile _ _ hnd
  have hpre : stripWs t <+: t.dropWhile isPyWs := by
    rw [stripWs]
    refine List.reverse_suffix.mp ?_
    rw [List.reverse_reverse]
    exact List.dropWhile_suffix isPyWs
  have hres_nodbl : noDbl (stripWs t) = true := by
    rcases hpre with ⟨r, hr⟩
    exact noDbl_append_left _ r (by rw [hr]; exact ha)
  refine ⟨hres_nodbl, ?_, ?_, hsub1⟩
  · intro d hd
    rw [stripWs, List.head?_reverse] at hd
    by_cases hbn : (t.dropWhile isPyWs).reverse.dropWhile isPyWs = []
    · rw [hbn] at hd; cases hd
    · rcases List.dropWhile_suffix (l := (t.dropWhile isPyWs).reverse) isPyWs with ⟨r, hr⟩
      have h3 : ((t.dropWhile isPyWs).reverse).getLast? = some d := by
        rw [← hr, List.getLast?_append_of_ne_nil _ hbn]; exact hd
      rw [List.getLast?_reverse] at h3
      exact head_dropWhile_false _ _ _ h3
  · intro d hd
    rw [stripWs, List.getLast?_reverse] at hd
    exact head_dropWhile_false _ _ _ hd

/-- C2 (amended): for every input, `normalize_name` yields a string of
lowercase-alphanumeric-or-space characters with no two adjacent spaces and
no space at either end (lowercasing, non-alphanumeric stripping, whitespace
collapsing and trimming); no legal-entity suffix stripping takes place. -/
theorem normalize_name_shape (s : String) :
    ((normalize_name s).data.all isAllowedNm && noDbl (normalize_name s).data &&
      noEdgeSpace (normalize_name s).data) = true := by
  have hdata : (normalize_name s).data =
      stripWs (collapseWs ((s.data.map toLowerA).filter isAllowedNm)) := rfl
  have hnd : noDbl (collapseWs ((s.data.map toLowerA).filter isAllowedNm)) = true :=
    noDbl_collapseGo _ _ (le_refl _)
  rcases stripWs_shape _ hnd with ⟨h1, h2, h3, h4⟩
  have hall : (normalize_name s).data.all isAllowedNm = true := by
    refine List.all_eq_true.mpr ?_
    intro c hc
    rw [hdata] at hc
    rcases collapseGo_mem _ _ _ (h4 c hc) with h | h
    · exact (List.mem_filter.mp h).2
    · subst h; rfl
  have hedge : noEdgeSpace (normalize_name s).data = true := by
    rw [hdata, noEdgeSpace]
    have hh : ((stripWs (collapseWs ((s.data.map toLowerA).filter
        isAllowedNm))).head?.getD 'a' != ' ') = true := by
      cases hv : (stripWs (collapseWs ((s.data.map toLowerA).filter isAllowedNm))).head? with
      | none => rfl
      | some d =>
        have := h2 d hv
        simp only [Option.getD_some]
        refine bne_iff_ne.mpr ?_
        intro he; subst he; exact absurd rfl (Bool.eq_false_iff.mp this)
    have hl : ((stripWs (collapseWs ((s.data.map toLowerA).filter
        isAllowedNm))).getLast?.getD 'a' != ' ') = true := by
      cases hv : (stripWs (collapseWs ((s.data.map toLowerA).filter isAllowedNm))).getLast? with
      | none => rfl
      | some d =>
        have := h3 d hv
        simp only [Option.getD_some]
        refine bne_iff_ne.mpr ?_
        intro he; subst he; exact absurd rfl (Bool.eq_false_iff.mp this)
    rw [hh, hl]
    rfl
  have hnodbl : noDbl (normalize_name s).data = true := by rw [hdata]; exact h1
  rw [hall, hnodbl, hedge]
  rfl

/- =================== theorems: date-window rule (2) =================== -/

/-- Removal characterization of `is_forbidden_activity_date`: it fires
exactly on non-empty, non-sentinel values that parse and lie strictly after
`now`. -/
theorem is_forbidden_iff (s : String) (now : PDT) :
    is_forbidden_activity_date s now = true ↔
      s ≠ "" ∧ s ∉ zeroSentinels ∧
        ∃ d, fromisoformat (cleanTZ s.data) = some d ∧ pdtLt now d = true := by
  rw [is_forbidden_activity_date]
  split_ifs with h1 h2
  · simp [h1]
  · simp [h2]
  · cases hp : fromisoformat (cleanTZ s.data) with
    | none => simp [hp, h1, h2]
    | some d =>
      simp only [hp, h1, h2, ne_eq, not_false_eq_true, true_and]
      constructor
      · intro h; exact ⟨d, rfl, h⟩
      · rintro ⟨e, he, hlt⟩
        cases he
        exact hlt

/-- C1 (counterexample): with `now = 2024-06-01`, the value `2024-05-01`
parses, lies 31 days in the past — inside the claimed trailing 90-day
exclusion window — yet the rule does not remove the record: the code
removes only strictly future dates. -/
theorem date_window_no_trailing_window :
    fromisoformat (cleanTZ "2024-05-01".data) = some ⟨2024, 5, 1, 0, 0, 0⟩ ∧
    pdtLt ⟨2024, 6, 1, 0, 0, 0⟩ ⟨2024, 5, 1, 0, 0, 0⟩ = false ∧
    dayNumber ⟨2024, 6, 1, 0, 0, 0⟩ - dayNumber ⟨2024, 5, 1, 0, 0, 0⟩ = 31 ∧
    (0 : Int) < 31 ∧ (31 : Int) ≤ 90 ∧
    is_forbidden_activity_date "2024-05-01" ⟨2024, 6, 1, 0, 0, 0⟩ = false ∧
    (ruleSplit "forbidden_activity_date"
        (fun x => is_forbidden_activity_date x.nextAct ⟨2024, 6, 1, 0, 0, 0⟩)
        [⟨"1", "10", "Acme", "", "2024-05-01", "A", "B"⟩]).2 = [] ∧
    (ruleSplit "forbidden_activity_date"
        (fun x => is_forbidden_activity_date x.nextAct ⟨2024, 6, 1, 0, 0, 0⟩)
        [⟨"1", "10", "Acme", "", "2024-05-01", "A", "B"⟩]).1
      = [⟨"1", "10", "Acme", "", "2024-05-01", "A", "B"⟩] := by
  decide

/-- C1 (amended): the date rule of reconcile removes a record — appending
its delete-log entry — exactly when its next-activity value is non-empty,
is not a zero sentinel, parses, and is STRICTLY in the future relative to
now; dates at or before now (in particular the whole trailing 90-day
window), missing values, sentinels and unparseable values are never
removed. -/
theorem date_rule_strictly_future_only (now : PDT) (rows : List RRow) (r : RRow) :
    (DropEntry.mk "forbidden_activity_date" r) ∈
      (ruleSplit "forbidden_activity_date"
        (fun x => is_forbidden_activity_date x.nextAct now) rows).2 ↔
    (r ∈ rows ∧ r.nextAct ≠ "" ∧ r.nextAct ∉ zeroSentinels ∧
      ∃ d, fromisoformat (cleanTZ r.nextAct.data) = some d ∧ pdtLt now d = true) := by
  rw [ruleSplit]
  simp only [List.mem_map, List.mem_filter]
  constructor
  · rintro ⟨x, ⟨hx, hp⟩, he⟩
    cases he
    exact ⟨hx, (is_forbidden_iff _ _).mp hp⟩
  · rintro ⟨hr, hrest⟩
    exact ⟨r, ⟨hr, (is_forbidden_iff _ _).mpr hrest⟩, rfl⟩

/- ================ theorems: fuzzy duplicate rule (4.4) ================ -/

/-- The LCS of a list with itself is its length. -/
theorem lcsGo_self (fuel : Nat) :
    ∀ (l : List Char), 2 * l.length ≤ fuel → lcsGo fuel l l = l.length := by
  induction fuel with
  | zero =>
    intro l hl
    have : l = [] := List.length_eq_zero.mp (by omega)
    subst this; rfl
  | succ n ih =>
    intro l hl
    match l with
    | [] => rfl
    | a :: as =>
      rw [lcsGo, if_pos rfl, ih as (by simp at hl; omega)]
      simp [Nat.add_comm]

/-- Scores always carry a positive denominator. -/
theorem token_sort_ratio_den_pos (a b : List Char) : 0 < (token_sort_ratio a b).den := by
  rw [token_sort_ratio]
  split_ifs with h
  · exact Nat.one_pos
  · exact Nat.pos_of_ne_zero h

/-- Scoring a string against itself yields exactly 100. -/
theorem token_sort_ratio_self (a : List Char) :
    (token_sort_ratio a a).num = 100 * (token_sort_ratio a a).den := by
  rw [token_sort_ratio]
  split_ifs with h
  · rfl
  · simp only
    rw [lcsLen, lcsGo_self _ _ (by omega)]
    ring

/-- Unfolding of the strict score comparison. -/
theorem fGt_eq_false_iff (a b : FScore) :
    fGt a b = false ↔ a.num * b.den ≤ b.num * a.den := by
  simp [fGt, not_lt]

/-- Domination is transitive through a score with positive denominator. -/
theorem fGt_false_trans (x y z : FScore) (hy : 0 < y.den)
    (h1 : fGt x y = false) (h2 : fGt y z = false) : fGt x z = false := by
  rw [fGt_eq_false_iff] at h1 h2 ⊢
  have h3 : x.num * y.den * z.den ≤ y.num * x.den * z.den :=
    Nat.mul_le_mul_right _ h1
  have h4 : y.num * z.den * x.den ≤ z.num * y.den * x.den :=
    Nat.mul_le_mul_right _ h2
  have h5 : x.num * z.den * y.den ≤ z.num * x.den * y.den := by
    calc x.num * z.den * y.den = x.num * y.den * z.den := by ring
    _ ≤ y.num * x.den * z.den := h3
    _ = y.num * z.den * x.den := by ring
    _ ≤ z.num * y.den * x.den := h4
    _ = z.num * x.den * y.den := by ring
  exact Nat.le_of_mul_le_mul_right h5 hy

/-- The running best of `extractOne` dominates the accumulator and every
remaining choice. -/
theorem extractOne_fold_dominates (q : List Char) :
    ∀ (cs : List (List Char)) (b0 : List Char) (s0 : FScore), 0 < s0.den →
      ∃ b s,
        cs.foldl
          (fun acc c =>
            match acc with
            | none => some (c, token_sort_ratio q c)
            | some (b, s) =>
              if fGt (token_sort_ratio q c) s then some (c, token_sort_ratio q c)
              else some (b, s))
          (some (b0, s0)) = some (b, s) ∧
        fGt s0 s = false ∧ (∀ c ∈ cs, fGt (token_sort_ratio q c) s = false) ∧ 0 < s.den := by
  intro cs
  induction cs with
  | nil =>
    intro b0 s0 hs0
    refine ⟨b0, s0, rfl, ?_, ?_, hs0⟩
    · rw [fGt_eq_false_iff]
    · intro c hc; cases hc
  | cons c cs ih =>
    intro b0 s0 hs0
    by_cases hgt : fGt (token_sort_ratio q c) s0 = true
    · rcases ih c (token_sort_ratio q c) (token_sort_ratio_den_pos q c) with
        ⟨b, s, heq, hacc, hall, hsd⟩
      refine ⟨b, s, ?_, ?_, ?_, hsd⟩
      · simpa [hgt] using heq
      · refine fGt_false_trans s0 (token_sort_ratio q c) s (token_sort_ratio_den_pos q c) ?_ hacc
        rw [fGt_eq_false_iff]
        have := (by simpa [fGt] using hgt : s0.num * (token_sort_ratio q c).den <
          (token_sort_ratio q c).num * s0.den)
        omega
      · intro d hd
        rcases List.mem_cons.mp hd with h | h
        · subst h; exact hacc
        · exact hall d h
    · have hgt2 : fGt (token_sort_ratio q c) s0 = false := Bool.eq_false_iff.mpr hgt
      rcases ih b0 s0 hs0 with ⟨b, s, heq, hacc, hall, hsd⟩
      refine ⟨b, s, ?_, hacc, ?_, hsd⟩
      · simpa [hgt2] using heq
      · intro d hd
        rcases List.mem_cons.mp hd with h | h
        · subst h
          exact fGt_false_trans (token_sort_ratio q d) s0 s hs0 hgt2 hacc
        · exact hall d h

/-- `extractOne` returns a best entry whose score dominates the score of
every choice. -/
theorem extractOne_dominates (q : List Char) (choices : List (List Char)) (c : List Char)
    (hc : c ∈ choices) :
    ∃ b s, extractOne q choices = some (b, s) ∧ fGt (token_sort_ratio q c) s = false := by
  match choices with
  | [] => cases hc
  | c0 :: cs =>
    rw [extractOne, List.foldl_cons]
    rcases extractOne_fold_dominates q cs c0 (token_sort_ratio q c0)
        (token_sort_ratio_den_pos q c0) with ⟨b, s, heq, hacc, hall, hsd⟩
    refine ⟨b, s, heq, ?_⟩
    rcases List.mem_cons.mp hc with h | h
    · subst h; exact hacc
    · exact hall c h

/-- A score dominating an exact self-match meets the 95 threshold. -/
theorem fGeConst_of_dominates_self (q : List Char) (s : FScore)
    (h : fGt (token_sort_ratio q q) s = false) : fGeConst s 95 = true := by
  rw [fGt_eq_false_iff, token_sort_ratio_self] at h
  have hden := token_sort_ratio_den_pos q q
  rw [fGeConst]
  have h100 : 100 * s.den ≤ s.num := by
    have : 100 * (token_sort_ratio q q).den * s.den ≤ s.num * (token_sort_ratio q q).den := h
    have h2 : 100 * s.den * (token_sort_ratio q q).den ≤ s.num * (token_sort_ratio q q).den := by
      calc 100 * s.den * (token_sort_ratio q q).den
          = 100 * (token_sort_ratio q q).den * s.den := by ring
      _ ≤ s.num * (token_sort_ratio q q).den := h
    exact Nat.le_of_mul_le_mul_right h2 hden
  simp only [decide_eq_true_eq]
  omega

/-- C4 (counterexample): the reference pool built by
`_fetch_org_names_for_filter_capped` stores RAW names, and rule 3 scores
the NORMALIZED record name against them.  With reference name `"ACME"`
and record name `"Acme"` the normalized forms agree (`"acme"`), the entry
sits in the bucket of the record and passes the length pre-filter, yet
`token_sort_ratio("acme", "ACME")` is 0 < 95, so the record is NOT
removed. -/
theorem fuzzy_exact_normalized_match_below_threshold :
    normalize_name "Acme" = normalize_name "ACME" ∧
    fetch_org_names_for_filter_capped ["ACME"] 1000 200 = [("ac", ["ACME"])] ∧
    ((("ACME" : String).data.length : Int) -
      ((normalize_name "Acme").data.length : Int)).natAbs ≤ 4 ∧
    fuzzy_removes (fetch_org_names_for_filter_capped ["ACME"] 1000 200) "Acme" = false ∧
    (ruleSplit "org_match_95"
        (fun x => fuzzy_removes (fetch_org_names_for_filter_capped ["ACME"] 1000 200) x.orgname)
        [⟨"1", "10", "Acme", "", "", "", ""⟩]).2 = [] := by
  decide

/-- C4 (amended): the fuzzy rule scores the normalized record name against
the RAW reference names of its bucket; whenever the normalized record
name itself occurs verbatim in its blocking bucket, the exact match scores
100 ≥ 95 (the best score can only dominate it) and the rule removes the
record. -/
theorem fuzzy_rule_removes_exact_raw_match (buckets : List (String × List String))
    (rows : List RRow) (r : RRow) (bucket : List String)
    (hne : normalize_name r.orgname ≠ "")
    (hlook : buckets.lookup (bucket_key (normalize_name r.orgname)) = some bucket)
    (hmem : normalize_name r.orgname ∈ bucket)
    (hr : r ∈ rows) :
    fuzzy_removes buckets r.orgname = true ∧
    DropEntry.mk "org_match_95" r ∈
      (ruleSplit "org_match_95" (fun x => fuzzy_removes buckets x.orgname) rows).2 := by
  have hfr : fuzzy_removes buckets r.orgname = true := by
    rw [fuzzy_removes]
    simp only
    rw [if_neg hne, hlook]
    simp only
    rw [if_neg (by
      intro he
      rw [he] at hmem
      cases hmem)]
    have hnear : normalize_name r.orgname ∈ bucket.filter
        (fun n => decide (((n.data.length : Int) -
          (((normalize_name r.orgname).data.length : Int))).natAbs ≤ 4)) := by
      refine List.mem_filter.mpr ⟨hmem, ?_⟩
      simp
    have hq : (normalize_name r.orgname).data ∈
        (bucket.filter (fun n => decide (((n.data.length : Int) -
          (((normalize_name r.orgname).data.length : Int))).natAbs ≤ 4))).map String.data :=
      List.mem_map_of_mem _ hnear
    rcases extractOne_dominates _ _ _ hq with ⟨b, s, heq, hdom⟩
    rw [heq]
    exact fGeConst_of_dominates_self _ _ hdom
  refine ⟨hfr, ?_⟩
  rw [ruleSplit]
  simp only [List.mem_map, List.mem_filter]
  exact ⟨r, ⟨hr, hfr⟩, rfl⟩

/-- Witness for `fuzzy_rule_removes_exact_raw_match` at concrete data. -/
theorem fuzzy_rule_removes_exact_raw_match_witness :
    fuzzy_removes [("ac", ["acme"])] "Acme" = true ∧
    DropEntry.mk "org_match_95" ⟨"1", "10", "Acme", "", "", "", ""⟩ ∈
      (ruleSplit "org_match_95" (fun x => fuzzy_removes [("ac", ["acme"])] x.orgname)
        [⟨"1", "10", "Acme", "", "", "", ""⟩]).2 :=
  fuzzy_rule_removes_exact_raw_match [("ac", ["acme"])]
    [⟨"1", "10", "Acme", "", "", "", ""⟩] ⟨"1", "10", "Acme", "", "", "", ""⟩ ["acme"]
    (by decide) (by decide) (by decide) (List.mem_singleton.mpr rfl)

/- ================== theorems: per-group cap rule (5) ================== -/

/-- Two lists that compare below each other in neither direction are
equal. -/
theorem lexLt_eq_of_neither : ∀ (a b : List Char),
    lexLt a b = false → lexLt b a = false → a = b
  | [], [], _, _ => rfl
  | [], _ :: _, h1, _ => by rw [lexLt] at h1; cases h1
  | _ :: _, [], _, h2 => by rw [lexLt] at h2; cases h2
  | a :: as, b :: bs, h1, h2 => by
    rw [lexLt] at h1 h2
    by_cases hab : a.toNat < b.toNat
    · rw [if_pos hab] at h1; cases h1
    · by_cases hba : b.toNat < a.toNat
      · rw [if_pos hba] at h2; cases h2
      · rw [if_neg hab, if_neg hba] at h1
        rw [if_neg hba, if_neg hab] at h2
        have hn : a.toNat = b.toNat := by omega
        have hchar : a = b := Char.ext (UInt32.ext hn)
        rw [hchar, lexLt_eq_of_neither as bs h1 h2]

/-- Lexicographic comparison is transitive. -/
theorem lexLt_trans : ∀ (a b c : List Char),
    lexLt a b = true → lexLt b c = true → lexLt a c = true
  | [], [], _, h1, _ => by rw [lexLt] at h1; cases h1
  | [], _ :: _, [], _, h2 => by rw [lexLt] at h2; cases h2
  | [], _ :: _, _ :: _, _, _ => by rw [lexLt]
  | _ :: _, [], _, h1, _ => by rw [lexLt] at h1; cases h1
  | _ :: _, _ :: _, [], _, h2 => by rw [lexLt] at h2; cases h2
  | a :: as, b :: bs, c :: cs, h1, h2 => by
    rw [lexLt] at h1 h2 ⊢
    by_cases hab : a.toNat < b.toNat
    · by_cases hbc : b.toNat < c.toNat
      · rw [if_pos (by omega : a.toNat < c.toNat)]
      · rw [if_neg hbc] at h2
        by_cases hcb : c.toNat < b.toNat
        · rw [if_pos hcb] at h2; cases h2
        · rw [if_pos (by omega : a.toNat < c.toNat)]
    · rw [if_neg hab] at h1
      by_cases hba : b.toNat < a.toNat
      · rw [if_pos hba] at h1; cases h1
      · rw [if_neg hba] at h1
        by_cases hbc : b.toNat < c.toNat
        · rw [if_pos (by omega : a.toNat < c.toNat)]
        · rw [if_neg hbc] at h2
          by_cases hcb : c.toNat < b.toNat
          · rw [if_pos hcb] at h2; cases h2
          · rw [if_neg hcb] at h2
            rw [if_neg (by omega : ¬ a.toNat < c.toNat),
              if_neg (by omega : ¬ c.toNat < a.toNat)]
            exact lexLt_trans as bs cs h1 h2

/-- Lexicographic comparison is irreflexive. -/
theorem lexLt_irrefl : ∀ (a : List Char), lexLt a a = false
  | [] => rfl
  | a :: as => by
    rw [lexLt, if_neg (Nat.lt_irrefl _), if_neg (Nat.lt_irrefl _)]
    exact lexLt_irrefl as

/-- Case split of a successful row comparison. -/
theorem rowLe_cases (a b : RRow) (h : rowLe a b = true) :
    lexLt a.orgid.data b.orgid.data = true ∨
    (a.orgid.data = b.orgid.data ∧ pidNum a.pid ≤ pidNum b.pid) := by
  rw [rowLe] at h
  by_cases h1 : lexLt a.orgid.data b.orgid.data = true
  · exact Or.inl h1
  · rw [if_neg h1] at h
    by_cases h2 : lexLt b.orgid.data a.orgid.data = true
    · rw [if_pos h2] at h; cases h
    · rw [if_neg h2] at h
      exact Or.inr ⟨lexLt_eq_of_neither _ _ (Bool.eq_false_iff.mpr h1)
        (Bool.eq_false_iff.mpr h2), by simpa using h⟩

/-- Building a successful row comparison from the case split. -/
theorem rowLe_intro (a b : RRow)
    (h : lexLt a.orgid.data b.orgid.data = true ∨
      (a.orgid.data = b.orgid.data ∧ pidNum a.pid ≤ pidNum b.pid)) :
    rowLe a b = true := by
  rw [rowLe]
  rcases h with h | ⟨he, hp⟩
  · rw [if_pos h]
  · rw [he, if_neg (by rw [lexLt_irrefl]; exact Bool.false_ne_true),
      if_neg (by rw [lexLt_irrefl]; exact Bool.false_ne_true)]
    simpa using hp

/-- The row order is total. -/
theorem rowLe_total : ∀ (a b : RRow), rowLeP a b ∨ rowLeP b a := by
  intro a b
  by_cases h1 : lexLt a.orgid.data b.orgid.data = true
  · exact Or.inl (rowLe_intro a b (Or.inl h1))
  · by_cases h2 : lexLt b.orgid.data a.orgid.data = true
    · exact Or.inr (rowLe_intro b a (Or.inl h2))
    · have he := lexLt_eq_of_neither _ _ (Bool.eq_false_iff.mpr h1) (Bool.eq_false_iff.mpr h2)
      rcases le_total (pidNum a.pid) (pidNum b.pid) with hp | hp
      · exact Or.inl (rowLe_intro a b (Or.inr ⟨he, hp⟩))
      · exact Or.inr (rowLe_intro b a (Or.inr ⟨he.symm, hp⟩))

/-- The row order is transitive. -/
theorem rowLe_trans : ∀ (a b c : RRow), rowLeP a b → rowLeP b c → rowLeP a c := by
  intro a b c h1 h2
  rcases rowLe_cases a b h1 with hl1 | ⟨he1, hp1⟩ <;>
    rcases rowLe_cases b c h2 with hl2 | ⟨he2, hp2⟩
  · exact rowLe_intro a c (Or.inl (lexLt_trans _ _ _ hl1 hl2))
  · exact rowLe_intro a c (Or.inl (he2 ▸ hl1))
  · exact rowLe_intro a c (Or.inl (he1 ▸ hl2))
  · exact rowLe_intro a c (Or.inr ⟨he1.trans he2, hp1.trans hp2⟩)

/-- The rows underlying the cumulative indexing are the rows themselves. -/
theorem cumIdxGo_map_fst : ∀ (rows : List RRow) (cnt : String → Nat),
    (cumIdxGo rows cnt).map Prod.fst = rows
  | [], _ => rfl
  | r :: rest, cnt => by
    rw [cumIdxGo, List.map_cons, cumIdxGo_map_fst rest]

/-- Every produced index is at least the running count of its group. -/
theorem cumIdxGo_cnt_le : ∀ (rows : List RRow) (cnt : String → Nat)
    (e : RRow × Nat), e ∈ cumIdxGo rows cnt → cnt e.1.orgid ≤ e.2
  | [], _, _, h => by cases h
  | r :: rest, cnt, e, h => by
    rw [cumIdxGo] at h
    rcases List.mem_cons.mp h with he | he
    · subst he; exact le_refl _
    · have ih := cumIdxGo_cnt_le rest _ e he
      by_cases ho : e.1.orgid = r.orgid
      · rw [if_pos ho] at ih; omega
      · rw [if_neg ho] at ih; exact ih

/-- Every produced index is below the running count plus the remaining
occurrences of its group. -/
theorem cumIdxGo_idx_lt : ∀ (rows : List RRow) (cnt : String → Nat)
    (e : RRow × Nat), e ∈ cumIdxGo rows cnt →
      e.2 < cnt e.1.orgid + List.countP (fun y => y.orgid == e.1.orgid) rows
  | [], _, _, h => by cases h
  | r :: rest, cnt, e, h => by
    rw [cumIdxGo] at h
    rw [List.countP_cons]
    rcases List.mem_cons.mp h with he | he
    · subst he
      dsimp only
      rw [if_pos (by simp)]
      omega
    · have ih := cumIdxGo_idx_lt rest _ e he
      by_cases ho : e.1.orgid = r.orgid
      · rw [if_pos ho] at ih
        rw [if_pos (by simp [ho.symm])]
        omega
      · rw [if_neg ho] at ih
        rw [if_neg (by simp [Ne.symm ho] : ¬ (r.orgid == e.1.orgid) = true)]
        omega

/-- Within one group the indices strictly increase along the list. -/
theorem cumIdxGo_pairwise_idx : ∀ (rows : List RRow) (cnt : String → Nat),
    List.Pairwise (fun e f => e.1.orgid = f.1.orgid → e.2 < f.2) (cumIdxGo rows cnt)
  | [], _ => List.Pairwise.nil
  | r :: rest, cnt => by
    rw [cumIdxGo]
    refine List.Pairwise.cons ?_ (cumIdxGo_pairwise_idx rest _)
    intro f hf ho
    have hle := cumIdxGo_cnt_le rest _ f hf
    dsimp only at hle ho ⊢
    rw [← ho, if_pos rfl] at hle
    omega

/-- At most `K - cnt o` entries of group `o` carry an index below `K`. -/
theorem cumIdxGo_count_lt_le : ∀ (rows : List RRow) (cnt : String → Nat) (o : String) (K : Nat),
    List.countP (fun e => e.1.orgid == o && decide (e.2 < K)) (cumIdxGo rows cnt) ≤ K - cnt o
  | [], _, _, _ => by rw [cumIdxGo]; exact Nat.zero_le _
  | r :: rest, cnt, o, K => by
    rw [cumIdxGo, List.countP_cons]
    have ih := cumIdxGo_count_lt_le rest
      (fun o2 => if o2 = r.orgid then cnt o2 + 1 else cnt o2) o K
    dsimp only at ih ⊢
    by_cases ho : r.orgid = o
    · rw [if_pos ho.symm] at ih
      by_cases hk : cnt o < K
      · rw [if_pos (by simp [ho, hk])]
        omega
      · rw [if_neg (by simp [ho]; omega)]
        omega
    · rw [if_neg (Ne.symm ho)] at ih
      rw [if_neg (by simp [ho])]
      omega

/-- Exactly `K - cnt o` entries of group `o` carry an index below `K` when
the group still holds at least `K - cnt o` rows. -/
theorem cumIdxGo_count_lt_eq : ∀ (rows : List RRow) (cnt : String → Nat) (o : String) (K : Nat),
    cnt o ≤ K → K ≤ cnt o + List.countP (fun y => y.orgid == o) rows →
    List.countP (fun e => e.1.orgid == o && decide (e.2 < K)) (cumIdxGo rows cnt) = K - cnt o
  | [], _, o, K, h1, h2 => by
    rw [cumIdxGo]
    simp only [List.countP_nil] at h2 ⊢
    omega
  | r :: rest, cnt, o, K, h1, h2 => by
    rw [cumIdxGo, List.countP_cons]
    rw [List.countP_cons] at h2
    dsimp only
    by_cases ho : r.orgid = o
    · rw [if_pos (by simp [ho])] at h2
      by_cases hk : cnt o < K
      · rw [if_pos (by simp [ho, hk])]
        have ih := cumIdxGo_count_lt_eq rest
          (fun o2 => if o2 = r.orgid then cnt o2 + 1 else cnt o2) o K
          (by dsimp only; rw [if_pos ho.symm]; omega)
          (by dsimp only; rw [if_pos ho.symm]; omega)
        try dsimp only at ih
        rw [if_pos ho.symm] at ih
        omega
      · rw [if_neg (by simp [ho]; omega)]
        have hle := cumIdxGo_count_lt_le rest
          (fun o2 => if o2 = r.orgid then cnt o2 + 1 else cnt o2) o K
        try dsimp only at hle
        rw [if_pos ho.symm] at hle
        omega
    · rw [if_neg (by simp [ho])] at h2
      have ih := cumIdxGo_count_lt_eq rest
        (fun o2 => if o2 = r.orgid then cnt o2 + 1 else cnt o2) o K
        (by dsimp only; rw [if_neg (Ne.symm ho)]; exact h1)
        (by dsimp only; rw [if_neg (Ne.symm ho)]; omega)
      try dsimp only at ih
      rw [if_neg (Ne.symm ho)] at ih
      rw [if_neg (by simp [ho])]
      omega

/-- The stable sort of rule 5 is sorted by the rule-5 key. -/
theorem sortRows_pairwise (rows : List RRow) : List.Pairwise rowLeP (sortRows rows) :=
  @List.sorted_insertionSort RRow rowLeP _ ⟨rowLe_total⟩ ⟨rowLe_trans⟩ rows

/-- The stable sort of rule 5 permutes its input. -/
theorem sortRows_perm (rows : List RRow) : (sortRows rows).Perm rows :=
  List.perm_insertionSort _ _

/-- The indexed entries project back to the sorted rows. -/
theorem cumIdx_map_fst (rows : List RRow) : (cumIdx rows).map Prod.fst = rows :=
  cumIdxGo_map_fst rows _

/-- Kept rows of `capStep` satisfying a row predicate, counted through the
indexed entries. -/
theorem capStep_kept_countP (K : Nat) (rows : List RRow) (p : RRow → Bool) :
    List.countP p (capStep K rows).1 =
      List.countP (fun e => p e.1 && decide (e.2 < K)) (cumIdx (sortRows rows)) := by
  rw [capStep]
  simp only [List.countP_map, List.countP_filter]
  rfl

/-- Unfolding of the cumulative indexing at the zero counter. -/
theorem cumIdx_eq (rows : List RRow) : cumIdx rows = cumIdxGo rows (fun _ => 0) := rfl

/-- C5: after the per-group cap rule, (a) every organization id occurs at
most `K` times in the kept set, and (b) every dropped record has at least
`K` kept records of the same organization whose numeric person id is at
most its own — the first `K` per group survive, the highest ids drop. -/
theorem per_org_cap (K : Nat) (rows : List RRow) :
    (∀ o : String, List.countP (fun x => x.orgid == o) (capStep K rows).1 ≤ K) ∧
    (∀ e, e ∈ (capStep K rows).2 →
      K ≤ List.countP
        (fun x => x.orgid == e.row.orgid && decide (pidNum x.pid ≤ pidNum e.row.pid))
        (capStep K rows).1) := by
  constructor
  · intro o
    rw [capStep_kept_countP, cumIdx_eq]
    have := cumIdxGo_count_lt_le (sortRows rows) (fun _ => 0) o K
    simpa using this
  · intro e he
    rw [capStep] at he
    simp only [List.mem_map, List.mem_filter] at he
    rcases he with ⟨x, ⟨⟨xi, hximem, hxieq⟩, hxe⟩⟩
    rcases hxe with rfl
    rcases hxieq with rfl
    rcases he2 : xi with ⟨x, i⟩
    subst he2
    simp only [Bool.not_eq_eq_eq_not, Bool.not_true, decide_eq_false_iff_not,
      not_lt] at hximem
    rcases hximem with ⟨hmem, hKi⟩
    rw [cumIdx_eq] at hmem
    have htot := cumIdxGo_idx_lt (sortRows rows) (fun _ => 0) (x, i) hmem
    simp only at htot
    have hexact := cumIdxGo_count_lt_eq (sortRows rows) (fun _ => 0) x.orgid K
      (Nat.zero_le _) (by omega)
    simp only [Nat.sub_zero] at hexact
    have hpoint : ∀ f, f ∈ cumIdxGo (sortRows rows) (fun _ => 0) →
        (f.1.orgid == x.orgid && decide (f.2 < K)) = true →
        (f.1.orgid == x.orgid && decide (pidNum f.1.pid ≤ pidNum x.pid)
          && decide (f.2 < K)) = true := by
      intro f hf hcond
      simp only [Bool.and_eq_true, beq_iff_eq, decide_eq_true_eq] at hcond ⊢
      rcases hcond with ⟨horg, hfK⟩
      refine ⟨⟨horg, ?_⟩, hfK⟩
      rcases List.mem_iff_get.mp hf with ⟨n, hn⟩
      rcases List.mem_iff_get.mp hmem with ⟨m, hm⟩
      have hpidx := List.pairwise_iff_get.mp
        (cumIdxGo_pairwise_idx (sortRows rows) (fun _ => 0))
      have hprl : List.Pairwise (fun a b => rowLeP a.1 b.1)
          (cumIdxGo (sortRows rows) (fun _ => 0)) := by
        refine (List.pairwise_map).mp ?_
        rw [← cumIdx_eq, cumIdx_map_fst]
        exact sortRows_pairwise rows
      have hprl2 := List.pairwise_iff_get.mp hprl
      rcases lt_trichotomy (n : Nat) (m : Nat) with hnm | hnm | hnm
      · have hrl := hprl2 n m hnm
        rw [hn, hm] at hrl
        rcases rowLe_cases _ _ hrl with hlt | ⟨_, hple⟩
        · rw [horg] at hlt
          rw [lexLt_irrefl] at hlt
          cases hlt
        · exact hple
      · exfalso
        have hnm2 : n = m := Fin.ext hnm
        have hfe : f = (x, i) := by rw [← hn, hnm2, hm]
        have : f.2 = i := by rw [hfe]
        omega
      · exfalso
        have hil := hpidx m n hnm
        rw [hn, hm] at hil
        have hlt := hil horg.symm
        simp only at hlt
        omega
    have hmono := List.countP_mono_left hpoint
    rw [hexact] at hmono
    simp only
    rw [capStep_kept_countP, cumIdx_eq]
    exact hmono

/-- Witness for `per_org_cap` on a concrete 4-row table: org A holds rows
with person ids 7, 3, 5 and org B one row; with `K = 2` the id-7 row drops
and two lower-id A rows stay. -/
theorem per_org_cap_witness :
    List.countP (fun x => x.orgid == "A")
      (capStep 2 [⟨"7", "A", "", "", "", "", ""⟩, ⟨"3", "A", "", "", "", "", ""⟩,
        ⟨"5", "A", "", "", "", "", ""⟩, ⟨"1", "B", "", "", "", "", ""⟩]).1 ≤ 2 ∧
    2 ≤ List.countP
        (fun x => x.orgid == (DropEntry.mk "per_org_limit" ⟨"7", "A", "", "", "", "", ""⟩).row.orgid
          && decide (pidNum x.pid ≤
            pidNum (DropEntry.mk "per_org_limit" ⟨"7", "A", "", "", "", "", ""⟩).row.pid))
      (capStep 2 [⟨"7", "A", "", "", "", "", ""⟩, ⟨"3", "A", "", "", "", "", ""⟩,
        ⟨"5", "A", "", "", "", "", ""⟩, ⟨"1", "B", "", "", "", "", ""⟩]).1 :=
  ⟨(per_org_cap 2 _).1 "A",
   (per_org_cap 2 _).2 (DropEntry.mk "per_org_limit" ⟨"7", "A", "", "", "", "", ""⟩) (by decide)⟩

/- ================ theorems: reconcile partition (4.6) ================ -/

/-- A single exclusion rule partitions its input: survivors plus logged
subjects are a permutation of the consumed set. -/
theorem ruleSplit_perm (reason : String) (p : RRow → Bool) (rows : List RRow) :
    ((ruleSplit reason p rows).1 ++ (ruleSplit reason p rows).2.map DropEntry.row).Perm rows := by
  rw [ruleSplit]
  have hmap : ((rows.filter p).map (fun r => DropEntry.mk reason r)).map DropEntry.row
      = rows.filter p := by
    rw [List.map_map]
    have hid : (DropEntry.row ∘ fun r => DropEntry.mk reason r) = id := rfl
    rw [hid, List.map_id]
  simp only [hmap]
  exact (List.perm_append_comm).trans (List.filter_append_perm p rows)

/-- Every entry a rule logs bears the reason code of that rule. -/
theorem ruleSplit_reason (reason : String) (p : RRow → Bool) (rows : List RRow)
    (e : DropEntry) (he : e ∈ (ruleSplit reason p rows).2) : e.reason = reason := by
  rw [ruleSplit] at he
  simp only [List.mem_map] at he
  rcases he with ⟨r, _, hr⟩
  rw [← hr]

/-- The cap rule partitions its input likewise. -/
theorem capStep_perm (K : Nat) (rows : List RRow) :
    ((capStep K rows).1 ++ (capStep K rows).2.map DropEntry.row).Perm rows := by
  rw [capStep]
  have hmap : ∀ (l : List RRow), (l.map (fun r => DropEntry.mk "per_org_limit" r)).map
      DropEntry.row = l := by
    intro l
    rw [List.map_map]
    have hid : (DropEntry.row ∘ fun r => DropEntry.mk "per_org_limit" r) = id := rfl
    rw [hid, List.map_id]
  simp only [hmap, ← List.map_append]
  have h1 := List.filter_append_perm (fun e => decide (e.2 < K)) (cumIdx (sortRows rows))
  have h2 := h1.map (fun x : RRow × Nat => x.1)
  have h3 : (cumIdx (sortRows rows)).map (fun x : RRow × Nat => x.1) = sortRows rows :=
    cumIdx_map_fst (sortRows rows)
  rw [h3] at h2
  exact h2.trans (sortRows_perm rows)

/-- Every entry the cap rule logs bears the `per_org_limit` reason code. -/
theorem capStep_reason (K : Nat) (rows : List RRow) (e : DropEntry)
    (he : e ∈ (capStep K rows).2) : e.reason = "per_org_limit" := by
  rw [capStep] at he
  simp only [List.mem_map] at he
  rcases he with ⟨r, _, hr⟩
  rw [← hr]

/-- C10: reconcile partitions its input — survivors plus logged subjects
are a permutation of the input rows (no row is created, dropped rows are
logged exactly once and never re-examined), every log entry bears one of
the five reason codes, and the summary reports for each reason exactly the
number of delete-log entries carrying it. -/
theorem reconcile_partitions_input (now : PDT) (orgNames : List String) (capL capB : Nat)
    (suspects : List String) (limit : Nat) (rows : List RRow) :
    ((reconcile now orgNames capL capB suspects limit rows).1 ++
      (reconcile now orgNames capL capB suspects limit rows).2.1.map DropEntry.row).Perm rows ∧
    (reconcile now orgNames capL capB suspects limit rows).1.length +
      (reconcile now orgNames capL capB suspects limit rows).2.1.length = rows.length ∧
    (reconcile now orgNames capL capB suspects limit rows).2.1.all
      (fun e => ["per_org_limit", "org_art_not_empty", "forbidden_activity_date",
        "org_match_95", "person_id_match"].contains e.reason) = true ∧
    (reconcile now orgNames capL capB suspects limit rows).2.2 =
      [("per_org_limit",
        (reconcile now orgNames capL capB suspects limit rows).2.1.countP
          (fun e => e.reason == "per_org_limit")),
       ("org_art_not_empty",
        (reconcile now orgNames capL capB suspects limit rows).2.1.countP
          (fun e => e.reason == "org_art_not_empty")),
       ("forbidden_activity_date",
        (reconcile now orgNames capL capB suspects limit rows).2.1.countP
          (fun e => e.reason == "forbidden_activity_date")),
       ("org_match_95",
        (reconcile now orgNames capL capB suspects limit rows).2.1.countP
          (fun e => e.reason == "org_match_95")),
       ("person_id_match",
        (reconcile now orgNames capL capB suspects limit rows).2.1.countP
          (fun e => e.reason == "person_id_match"))] := by
  rcases hA : ruleSplit "org_art_not_empty" (fun r => pyStrip r.orgtype ≠ "") rows with ⟨r1, l1⟩
  rcases hB : ruleSplit "forbidden_activity_date"
    (fun r => is_forbidden_activity_date r.nextAct now) r1 with ⟨r2, l2⟩
  rcases hC : ruleSplit "org_match_95"
    (fun r => fuzzy_removes (fetch_org_names_for_filter_capped orgNames capL capB) r.orgname)
    r2 with ⟨r3, l3⟩
  rcases hD : ruleSplit "person_id_match" (fun r => suspects.contains r.pid) r3 with ⟨r4, l4⟩
  rcases hE : capStep limit r4 with ⟨r5, l5⟩
  have hrec : reconcile now orgNames capL capB suspects limit rows =
      (r5, l1 ++ l2 ++ l3 ++ l4 ++ l5,
        [("per_org_limit",
          (l1 ++ l2 ++ l3 ++ l4 ++ l5).countP (fun e => e.reason == "per_org_limit")),
         ("org_art_not_empty",
          (l1 ++ l2 ++ l3 ++ l4 ++ l5).countP (fun e => e.reason == "org_art_not_empty")),
         ("forbidden_activity_date",
          (l1 ++ l2 ++ l3 ++ l4 ++ l5).countP (fun e => e.reason == "forbidden_activity_date")),
         ("org_match_95",
          (l1 ++ l2 ++ l3 ++ l4 ++ l5).countP (fun e => e.reason == "org_match_95")),
         ("person_id_match",
          (l1 ++ l2 ++ l3 ++ l4 ++ l5).countP (fun e => e.reason == "person_id_match"))]) := by
    simp only [reconcile, hA, hB, hC, hD, hE]
  have P1 : (r1 ++ l1.map DropEntry.row).Perm rows := by
    have := ruleSplit_perm "org_art_not_empty" (fun r => pyStrip r.orgtype ≠ "") rows
    rw [hA] at this
    exact this
  have P2 : (r2 ++ l2.map DropEntry.row).Perm r1 := by
    have := ruleSplit_perm "forbidden_activity_date"
      (fun r => is_forbidden_activity_date r.nextAct now) r1
    rw [hB] at this
    exact this
  have P3 : (r3 ++ l3.map DropEntry.row).Perm r2 := by
    have := ruleSplit_perm "org_match_95"
      (fun r => fuzzy_removes (fetch_org_names_for_filter_capped orgNames capL capB) r.orgname) r2
    rw [hC] at this
    exact this
  have P4 : (r4 ++ l4.map DropEntry.row).Perm r3 := by
    have := ruleSplit_perm "person_id_match" (fun r => suspects.contains r.pid) r3
    rw [hD] at this
    exact this
  have P5 : (r5 ++ l5.map DropEntry.row).Perm r4 := by
    have := capStep_perm limit r4
    rw [hE] at this
    exact this
  have q1 : (↑r1 + ↑(l1.map DropEntry.row) : Multiset RRow) = ↑rows := by
    rw [Multiset.coe_add]; exact Multiset.coe_eq_coe.mpr P1
  have q2 : (↑r2 + ↑(l2.map DropEntry.row) : Multiset RRow) = ↑r1 := by
    rw [Multiset.coe_add]; exact Multiset.coe_eq_coe.mpr P2
  have q3 : (↑r3 + ↑(l3.map DropEntry.row) : Multiset RRow) = ↑r2 := by
    rw [Multiset.coe_add]; exact Multiset.coe_eq_coe.mpr P3
  have q4 : (↑r4 + ↑(l4.map DropEntry.row) : Multiset RRow) = ↑r3 := by
    rw [Multiset.coe_add]; exact Multiset.coe_eq_coe.mpr P4
  have q5 : (↑r5 + ↑(l5.map DropEntry.row) : Multiset RRow) = ↑r4 := by
    rw [Multiset.coe_add]; exact Multiset.coe_eq_coe.mpr P5
  have hperm : ((reconcile now orgNames capL capB suspects limit rows).1 ++
      (reconcile now orgNames capL capB suspects limit rows).2.1.map DropEntry.row).Perm rows := by
    rw [hrec]
    simp only [List.map_append]
    apply Multiset.coe_eq_coe.mp
    simp only [← Multiset.coe_add]
    rw [← q1, ← q2, ← q3, ← q4, ← q5]
    abel
  refine ⟨hperm, ?_, ?_, ?_⟩
  · have hlen := hperm.length_eq
    simp only [List.length_append, List.length_map] at hlen
    omega
  · rw [hrec]
    refine List.all_eq_true.mpr ?_
    intro e he
    simp only [List.mem_append] at he
    rcases he with ((((h | h) | h) | h) | h)
    · rw [ruleSplit_reason "org_art_not_empty" _ rows e (by rw [hA]; exact h)]
      decide
    · rw [ruleSplit_reason "forbidden_activity_date" _ r1 e (by rw [hB]; exact h)]
      decide
    · rw [ruleSplit_reason "org_match_95" _ r2 e (by rw [hC]; exact h)]
      decide
    · rw [ruleSplit_reason "person_id_match" _ r3 e (by rw [hD]; exact h)]
      decide
    · rw [capStep_reason limit r4 e (by rw [hE]; exact h)]
      decide
  · rw [hrec]

/- ================ theorems: enrichment patch (4.5) ================ -/

/-- Updating a key makes it resolve to the new value. -/
theorem updAssocV_lookup_self : ∀ (l : List (String × V)) (k : String) (v : V),
    (updAssocV l k v).lookup k = some v
  | [], k, v => by simp [updAssocV, List.lookup]
  | (k2, v2) :: rest, k, v => by
    rw [updAssocV]
    by_cases h : k2 = k
    · rw [if_pos h]
      simp [List.lookup]
    · rw [if_neg h]
      have hb : (k == k2) = false := beq_eq_false_iff_ne.mpr (fun hh => h hh.symm)
      simp only [List.lookup, hb]
      exact updAssocV_lookup_self rest k v

/-- Updating a key leaves every other key unchanged. -/
theorem updAssocV_lookup_other : ∀ (l : List (String × V)) (k k2 : String) (v : V),
    k2 ≠ k → (updAssocV l k v).lookup k2 = l.lookup k2
  | [], k, k2, v, h => by
    simp [updAssocV, List.lookup, beq_eq_false_iff_ne.mpr h]
  | (k3, v3) :: rest, k, k2, v, h => by
    rw [updAssocV]
    by_cases h3 : k3 = k
    · rw [if_pos h3]
      have hb : (k2 == k) = false := beq_eq_false_iff_ne.mpr h
      have hb3 : (k2 == k3) = false := beq_eq_false_iff_ne.mpr (h3 ▸ h)
      simp only [List.lookup, hb, hb3]
    · rw [if_neg h3]
      by_cases h2 : k2 = k3
      · have hb : (k2 == k3) = true := beq_iff_eq.mpr h2
        simp only [List.lookup, hb]
      · have hb : (k2 == k3) = false := beq_eq_false_iff_ne.mpr h2
        simp only [List.lookup, hb]
        exact updAssocV_lookup_other rest k k2 v h

/-- Folding updates over keys that do not include `k` keeps `k`
unchanged. -/
theorem foldUpd_lookup_notin : ∀ (ps : List (String × V)) (acc : List (String × V)) (k : String),
    k ∉ ps.map Prod.fst →
    (ps.foldl (fun a kv => updAssocV a kv.1 kv.2) acc).lookup k = acc.lookup k
  | [], _, _, _ => rfl
  | (k0, v0) :: rest, acc, k, h => by
    simp only [List.map_cons, List.mem_cons, not_or] at h
    rw [List.foldl_cons]
    rw [foldUpd_lookup_notin rest _ k h.2]
    exact updAssocV_lookup_other acc k0 k v0 h.1

/-- Folding updates over a key-nodup list resolves each contained binding. -/
theorem foldUpd_lookup_mem : ∀ (ps : List (String × V)) (acc : List (String × V))
    (k : String) (v : V), (ps.map Prod.fst).Nodup → (k, v) ∈ ps →
    (ps.foldl (fun a kv => updAssocV a kv.1 kv.2) acc).lookup k = some v
  | [], _, _, _, _, hm => by cases hm
  | (k0, v0) :: rest, acc, k, v, hnd, hm => by
    simp only [List.map_cons, List.nodup_cons] at hnd
    rw [List.foldl_cons]
    rcases List.mem_cons.mp hm with he | he
    · rcases he with ⟨rfl, rfl⟩
      rw [foldUpd_lookup_notin rest _ k0 hnd.1]
      exact updAssocV_lookup_self acc k0 v0
    · exact foldUpd_lookup_mem rest _ k v hnd.2 he

/-- Membership through sorted insertion. -/
theorem mem_insSorted (x a : Int) : ∀ (l : List Int), a ∈ insSorted x l ↔ a = x ∨ a ∈ l
  | [] => by simp [insSorted]
  | y :: ys => by
    rw [insSorted]
    by_cases h1 : x < y
    · rw [if_pos h1]; simp
    · rw [if_neg h1]
      by_cases h2 : x = y
      · rw [if_pos h2]
        subst h2
        simp only [List.mem_cons]
        constructor
        · intro h; exact Or.inr h
        · rintro (h | h)
          · exact Or.inl (by rw [h])
          · exact h
      · rw [if_neg h2]
        simp only [List.mem_cons, mem_insSorted x a ys]
        tauto

/-- Sorted insertion preserves strict sortedness. -/
theorem pairwise_insSorted (x : Int) : ∀ (l : List Int),
    l.Pairwise (· < ·) → (insSorted x l).Pairwise (· < ·)
  | [], _ => by simp [insSorted]
  | y :: ys, hp => by
    rw [insSorted]
    rcases List.pairwise_cons.mp hp with ⟨hy, hys⟩
    by_cases h1 : x < y
    · rw [if_pos h1]
      refine List.pairwise_cons.mpr ⟨?_, hp⟩
      intro b hb
      rcases List.mem_cons.mp hb with hb | hb
      · rw [hb]; exact h1
      · exact h1.trans (hy b hb)
    · rw [if_neg h1]
      by_cases h2 : x = y
      · rw [if_pos h2]; exact hp
      · rw [if_neg h2]
        refine List.pairwise_cons.mpr ⟨?_, pairwise_insSorted x ys hys⟩
        intro b hb
        rcases (mem_insSorted x b ys).mp hb with hb | hb
        · subst hb
          omega
        · exact hy b hb

/-- Membership through the sorted set construction. -/
theorem mem_sortedDedupInt (a : Int) : ∀ (xs : List Int), a ∈ sortedDedupInt xs ↔ a ∈ xs
  | [] => by simp [sortedDedupInt]
  | x :: xs => by
    rw [sortedDedupInt, List.foldr_cons]
    rw [show List.foldr insSorted [] xs = sortedDedupInt xs from rfl]
    rw [mem_insSorted]
    simp [mem_sortedDedupInt a xs]

/-- The sorted set construction is strictly sorted. -/
theorem pairwise_sortedDedupInt : ∀ (xs : List Int), (sortedDedupInt xs).Pairwise (· < ·)
  | [] => by simp [sortedDedupInt]
  | x :: xs => by
    rw [sortedDedupInt, List.foldr_cons]
    exact pairwise_insSorted x _ (pairwise_sortedDedupInt xs)

/-- Two strictly sorted integer lists with the same members are equal. -/
theorem pairwise_lt_eq_of_mem_iff : ∀ (l1 l2 : List Int),
    l1.Pairwise (· < ·) → l2.Pairwise (· < ·) → (∀ a, a ∈ l1 ↔ a ∈ l2) → l1 = l2
  | [], [], _, _, _ => rfl
  | [], b :: t2, _, _, hm => by
    have := (hm b).mpr (List.mem_cons_self b t2)
    cases this
  | a :: t1, [], _, _, hm => by
    have := (hm a).mp (List.mem_cons_self a t1)
    cases this
  | a :: t1, b :: t2, h1, h2, hm => by
    rcases List.pairwise_cons.mp h1 with ⟨ha, ht1⟩
    rcases List.pairwise_cons.mp h2 with ⟨hb, ht2⟩
    have hab : a = b := by
      by_contra hne
      have hma : a ∈ b :: t2 := (hm a).mp (List.mem_cons_self a t1)
      have hmb : b ∈ a :: t1 := (hm b).mpr (List.mem_cons_self b t2)
      rcases List.mem_cons.mp hma with h | h
      · exact hne h
      · rcases List.mem_cons.mp hmb with h3 | h3
        · exact hne h3.symm
        · have hba := hb a h
          have hab2 := ha b h3
          omega
    subst hab
    have hmt : ∀ x, x ∈ t1 ↔ x ∈ t2 := by
      intro x
      constructor
      · intro hx
        have hlt := ha x hx
        rcases List.mem_cons.mp ((hm x).mp (List.mem_cons_of_mem a hx)) with h | h
        · omega
        · exact h
      · intro hx
        have hlt := hb x hx
        rcases List.mem_cons.mp ((hm x).mpr (List.mem_cons_of_mem a hx)) with h | h
        · omega
        · exact h
    rw [pairwise_lt_eq_of_mem_iff t1 t2 ht1 ht2 hmt]

/-- Splitting labels before extracting the digit entries. -/
theorem labelInts_append (xs ys : List V) :
    labelInts (xs ++ ys) = labelInts xs ++ labelInts ys := by
  simp [labelInts, List.filter_append]

/-- Every extracted label integer is nonnegative. -/
theorem labelInts_nonneg (xs : List V) (i : Int) (hi : i ∈ labelInts xs) : 0 ≤ i := by
  rcases List.mem_map.mp hi with ⟨v, hv, rfl⟩
  rcases List.mem_filter.mp hv with ⟨_, hd⟩
  cases v with
  | vint j => simp only [strIsDigit, decide_eq_true_eq] at hd; simpa [vToInt] using hd
  | vstr s => simp only [vToInt]; exact Int.natCast_nonneg _
  | vnull => simp [strIsDigit] at hd
  | vlist l => simp [strIsDigit] at hd
  | vdict l => simp [strIsDigit] at hd

/-- Extracting label integers from a list of nonnegative integer values is
the identity. -/
theorem labelInts_map_vint : ∀ (xs : List Int), (∀ i ∈ xs, 0 ≤ i) →
    labelInts (xs.map V.vint) = xs
  | [], _ => rfl
  | x :: xs, h => by
    have hx : strIsDigit (V.vint x) = true := by
      simp only [strIsDigit, decide_eq_true_eq]
      exact h x (List.mem_cons_self x xs)
    rw [List.map_cons]
    show ((((V.vint x) :: xs.map V.vint).filter strIsDigit).map vToInt) = x :: xs
    rw [List.filter_cons_of_pos hx, List.map_cons]
    show vToInt (V.vint x) :: labelInts (xs.map V.vint) = x :: xs
    rw [labelInts_map_vint xs (fun i hi => h i (List.mem_cons_of_mem x hi))]
    rfl

/-- The label comparison of the merge accepts a list against its own
integer image. -/
theorem eqLabelList_self : ∀ (xs : List Int), eqLabelList xs (xs.map V.vint) = true
  | [] => rfl
  | x :: xs => by
    rw [List.map_cons, eqLabelList]
    simp [eqLabelList_self xs]

/-- `x or []` on lists is `x` (an empty list is falsy and the default is
also empty). -/
theorem pyOr_vlist (xs : List V) : pyOr (V.vlist xs) (V.vlist []) = V.vlist xs := by
  cases xs <;> rfl

/-- `x or {}` on dicts is `x`. -/
theorem pyOr_vdict (xs : List (String × V)) : pyOr (V.vdict xs) (V.vdict []) = V.vdict xs := by
  cases xs <;> rfl

/-- Once an entry is non-blank, the custom-fields merge loop never blanks
it again. -/
theorem cfFold_keeps_filled : ∀ (lcf : List (String × V)) (st : List (String × V) × Bool)
    (k : String), v2_is_empty ((st.1.lookup k).getD .vnull) = false →
    v2_is_empty (((lcf.foldl cfStep st).1.lookup k).getD .vnull) = false
  | [], _, _, h => h
  | kv :: rest, st, k, h => by
    rw [List.foldl_cons]
    apply cfFold_keeps_filled rest
    rw [cfStep]
    by_cases hc : (v2_is_empty ((st.1.lookup kv.1).getD .vnull) && !v2_is_empty kv.2) = true
    · rw [if_pos hc]
      by_cases hk : kv.1 = k
      · exfalso
        rw [Bool.and_eq_true] at hc
        rw [hk] at hc
        rw [hc.1] at h
        cases h
      · show v2_is_empty (((updAssocV st.1 kv.1 kv.2).lookup k).getD .vnull) = false
        rw [updAssocV_lookup_other st.1 kv.1 k kv.2 (fun hh => hk hh.symm)]
        exact h
    · rw [if_neg hc]
      exact h

/-- The custom-fields merge loop never changes an entry whose current value
is non-blank: its exact value survives the fold. -/
theorem cfFold_preserves_nonempty : ∀ (lcf : List (String × V)) (st : List (String × V) × Bool)
    (k : String) (wv : V), st.1.lookup k = some wv → v2_is_empty wv = false →
    (lcf.foldl cfStep st).1.lookup k = some wv
  | [], _, _, _, h, _ => h
  | kv :: rest, st, k, wv, h, hwv => by
    rw [List.foldl_cons]
    apply cfFold_preserves_nonempty rest _ _ _ _ hwv
    rw [cfStep]
    by_cases hc : (v2_is_empty ((st.1.lookup kv.1).getD .vnull) && !v2_is_empty kv.2) = true
    · rw [if_pos hc]
      by_cases hk : kv.1 = k
      · exfalso
        rw [Bool.and_eq_true] at hc
        rw [hk, h] at hc
        have := hc.1
        rw [Option.getD_some] at this
        rw [hwv] at this
        cases this
      · show (updAssocV st.1 kv.1 kv.2).lookup k = some wv
        rw [updAssocV_lookup_other st.1 kv.1 k kv.2 (fun hh => hk hh.symm)]
        exact h
    · rw [if_neg hc]
      exact h

/-- After the custom-fields merge loop, every key the loser holds with a
non-blank value ends up non-blank. -/
theorem cfFold_fills : ∀ (lcf : List (String × V)) (st : List (String × V) × Bool)
    (k : String) (lv : V), (k, lv) ∈ lcf → v2_is_empty lv = false →
    v2_is_empty (((lcf.foldl cfStep st).1.lookup k).getD .vnull) = false
  | [], _, _, _, hm, _ => by cases hm
  | kv :: rest, st, k, lv, hm, hlv => by
    rw [List.foldl_cons]
    rcases List.mem_cons.mp hm with he | he
    · apply cfFold_keeps_filled
      rw [← he, cfStep]
      by_cases hc : (v2_is_empty ((st.1.lookup (k, lv).1).getD .vnull)
          && !v2_is_empty (k, lv).2) = true
      · rw [if_pos hc]
        show v2_is_empty (((updAssocV st.1 k lv).lookup k).getD .vnull) = false
        rw [updAssocV_lookup_self st.1 k lv, Option.getD_some]
        exact hlv
      · rw [if_neg hc]
        by_cases he2 : v2_is_empty ((st.1.lookup k).getD .vnull) = true
        · exfalso
          apply hc
          show (v2_is_empty ((st.1.lookup k).getD .vnull) && !v2_is_empty lv) = true
          rw [he2, hlv]
          rfl
        · exact Bool.eq_false_iff.mpr he2
    · exact cfFold_fills rest (cfStep st kv) k lv he hlv

/-- The custom-fields merge loop is the identity when no entry qualifies
for filling. -/
theorem cfFold_no_change : ∀ (lcf : List (String × V)) (st : List (String × V) × Bool),
    (∀ kv ∈ lcf, (v2_is_empty ((st.1.lookup kv.1).getD .vnull) && !v2_is_empty kv.2) = false) →
    lcf.foldl cfStep st = st
  | [], _, _ => rfl
  | kv :: rest, st, h => by
    have hc := h kv (List.mem_cons_self kv rest)
    have hst : cfStep st kv = st := by
      rw [cfStep, if_neg (by rw [hc]; simp)]
    rw [List.foldl_cons, hst]
    exact cfFold_no_change rest st (fun kv2 hm => h kv2 (List.mem_cons_of_mem kv hm))

/-- The label block is empty or the single sorted-union entry. -/
theorem patchLabels_shape (w l : V) :
    patchLabels w l = [] ∨
    (patchLabels w l = [("label_ids",
        V.vlist ((sortedDedupInt (labelInts (labelsOf w ++ labelsOf l))).map V.vint))] ∧
      pyOr (vGet l "label_ids") (V.vlist []) = V.vlist (labelsOf l)) := by
  rcases hw : pyOr (vGet w "label_ids") (V.vlist []) with _ | s | i | ws | kvs <;>
    rcases hl : pyOr (vGet l "label_ids") (V.vlist []) with _ | s2 | i2 | ls | kvs2 <;>
      simp only [patchLabels, hw, hl] <;> try exact Or.inl trivial
  have hws : labelsOf w = ws := by rw [labelsOf, hw]
  have hls : labelsOf l = ls := by rw [labelsOf, hl]
  subst hws
  subst hls
  by_cases he : eqLabelList (sortedDedupInt (labelInts (labelsOf w ++ labelsOf l))) (labelsOf w) = true
  · refine Or.inl ?_
    rw [if_neg (by rw [he]; simp)]
  · refine Or.inr ⟨?_, rfl⟩
    rw [if_pos (by rw [Bool.eq_false_iff.mpr he]; rfl)]

/-- The address block is empty or the single loser-address entry, emitted
only when the winner address value is blank and the loser one is not. -/
theorem patchAddress_shape (w l : V) :
    patchAddress w l = [] ∨
    (∃ la, patchAddress w l = [("address", V.vdict la)] ∧
      v2_is_empty (addrValue w) = true ∧
      v2_is_empty ((la.lookup "value").getD .vnull) = false ∧
      pyOr (vGet l "address") (V.vdict []) = V.vdict la) := by
  rcases hw : pyOr (vGet w "address") (V.vdict []) with _ | s | i | ws | wa <;>
    rcases hl : pyOr (vGet l "address") (V.vdict []) with _ | s2 | i2 | ls | la <;>
      simp only [patchAddress, hw, hl] <;> try exact Or.inl trivial
  have hav : addrValue w = (wa.lookup "value").getD .vnull := by rw [addrValue, hw]; rfl
  by_cases hc : (v2_is_empty ((wa.lookup "value").getD .vnull)
      && !v2_is_empty ((la.lookup "value").getD .vnull)) = true
  · rw [Bool.and_eq_true] at hc
    refine Or.inr ⟨la, ?_, by rw [hav]; exact hc.1, ?_, rfl⟩
    · rw [if_pos (show (v2_is_empty ((wa.lookup "value").getD .vnull)
          && !v2_is_empty ((la.lookup "value").getD .vnull)) = true by
        rw [Bool.and_eq_true]; exact hc)]
    · have := hc.2
      cases hne : v2_is_empty ((la.lookup "value").getD .vnull)
      · rfl
      · rw [hne] at this; cases this
  · refine Or.inl ?_
    rw [if_neg hc]

/-- Membership in the scalar block. -/
theorem patchScalars_mem (w l : V) (k : String) (v : V) :
    (k, v) ∈ patchScalars w l ↔
      (k ∈ (["cc_email", "owner_id", "visible_to"] : List String) ∧
        (keyIn l k && v2_is_empty (vGet w k) && !v2_is_empty (vGet l k)) = true ∧
        v = vGet l k) := by
  constructor
  · intro h
    rcases List.mem_map.mp h with ⟨a, ha, he⟩
    rcases List.mem_filter.mp ha with ⟨hm, hc⟩
    injection he with h1 h2
    subst h1
    subst h2
    exact ⟨hm, hc, rfl⟩
  · rintro ⟨hm, hc, rfl⟩
    exact List.mem_map.mpr ⟨k, List.mem_filter.mpr ⟨hm, hc⟩, rfl⟩

/-- Every scalar-block key is one of the three scalar fields. -/
theorem patchScalars_key (w l : V) (kv : String × V) (h : kv ∈ patchScalars w l) :
    kv.1 ∈ (["cc_email", "owner_id", "visible_to"] : List String) := by
  rcases List.mem_map.mp h with ⟨a, ha, he⟩
  rcases List.mem_filter.mp ha with ⟨hm, _⟩
  rw [← he]
  exact hm

/-- The custom-fields block is empty or the single merged-dict entry. -/
theorem patchCustom_shape (w l : V) :
    patchCustom w l = [] ∨
    (patchCustom w l = [("custom_fields",
        V.vdict ((customFieldsOf l).foldl cfStep (customFieldsOf w, false)).1)] ∧
      ((customFieldsOf l).foldl cfStep (customFieldsOf w, false)).2 = true ∧
      pyOr (vGet l "custom_fields") (V.vdict []) = V.vdict (customFieldsOf l)) := by
  rcases hw : pyOr (vGet w "custom_fields") (V.vdict []) with _ | s | i | ws | wcf <;>
    rcases hl : pyOr (vGet l "custom_fields") (V.vdict []) with _ | s2 | i2 | ls | lcf <;>
      simp only [patchCustom, hw, hl] <;> try exact Or.inl trivial
  have hwc : customFieldsOf w = wcf := by rw [customFieldsOf, hw]
  have hlc : customFieldsOf l = lcf := by rw [customFieldsOf, hl]
  subst hwc
  subst hlc
  by_cases hne : (customFieldsOf l).isEmpty = true
  · refine Or.inl ?_
    rw [if_neg (by rw [hne]; simp)]
  · rw [if_pos (by rw [Bool.eq_false_iff.mpr hne]; rfl)]
    by_cases hr : ((customFieldsOf l).foldl cfStep (customFieldsOf w, false)).2 = true
    · refine Or.inr ⟨?_, hr, rfl⟩
      rw [if_pos hr]
    · refine Or.inl ?_
      rw [if_neg hr]

/-- The label block depends on the winner only through its `label_ids`
field. -/
theorem patchLabels_congr (w1 w2 l : V) (h : vGet w1 "label_ids" = vGet w2 "label_ids") :
    patchLabels w1 l = patchLabels w2 l := by
  simp only [patchLabels, h]

/-- The address block depends on the winner only through its `address`
field. -/
theorem patchAddress_congr (w1 w2 l : V) (h : vGet w1 "address" = vGet w2 "address") :
    patchAddress w1 l = patchAddress w2 l := by
  simp only [patchAddress, h]

/-- The custom-fields block depends on the winner only through its
`custom_fields` field. -/
theorem patchCustom_congr (w1 w2 l : V) (h : vGet w1 "custom_fields" = vGet w2 "custom_fields") :
    patchCustom w1 l = patchCustom w2 l := by
  simp only [patchCustom, h]

/-- The scalar block depends on the winner only through its three scalar
fields. -/
theorem patchScalars_congr (w1 w2 l : V)
    (h : ∀ k ∈ (["cc_email", "owner_id", "visible_to"] : List String), vGet w1 k = vGet w2 k) :
    patchScalars w1 l = patchScalars w2 l := by
  rw [patchScalars, patchScalars]
  congr 1
  apply List.filter_congr
  intro k hk
  rw [h k hk]

/-- Every label-block key is `label_ids`. -/
theorem patchLabels_key (w l : V) (kv : String × V) (h : kv ∈ patchLabels w l) :
    kv.1 = "label_ids" := by
  rcases patchLabels_shape w l with hs | ⟨hs, _⟩ <;> rw [hs] at h
  · cases h
  · rw [List.mem_singleton] at h
    rw [h]

/-- Every address-block key is `address`. -/
theorem patchAddress_key (w l : V) (kv : String × V) (h : kv ∈ patchAddress w l) :
    kv.1 = "address" := by
  rcases patchAddress_shape w l with hs | ⟨la, hs, _, _, _⟩ <;> rw [hs] at h
  · cases h
  · rw [List.mem_singleton] at h
    rw [h]

/-- Every custom-fields-block key is `custom_fields`. -/
theorem patchCustom_key (w l : V) (kv : String × V) (h : kv ∈ patchCustom w l) :
    kv.1 = "custom_fields" := by
  rcases patchCustom_shape w l with hs | ⟨hs, _, _⟩ <;> rw [hs] at h
  · cases h
  · rw [List.mem_singleton] at h
    rw [h]

/-- A patch entry comes from one of the four blocks. -/
theorem patch_mem_cases (w l : V) (kv : String × V)
    (h : kv ∈ build_org_enrichment_patch_v2 w l) :
    kv ∈ patchLabels w l ∨ kv ∈ patchAddress w l ∨ kv ∈ patchScalars w l ∨
      kv ∈ patchCustom w l := by
  simp only [build_org_enrichment_patch_v2, List.mem_append] at h
  tauto

/-- A key missing from every entry is missing from the key list. -/
theorem key_notin_of_all_ne (ps : List (String × V)) (k : String)
    (hk : ∀ kv ∈ ps, kv.1 ≠ k) : k ∉ ps.map Prod.fst := by
  intro hmem
  rcases List.mem_map.mp hmem with ⟨kv, hkv, he⟩
  exact hk kv hkv he

/-- The patch keys form a sublist of the six canonical keys in order. -/
theorem patch_keys_sublist (w l : V) :
    ((build_org_enrichment_patch_v2 w l).map Prod.fst).Sublist
      ["label_ids", "address", "cc_email", "owner_id", "visible_to", "custom_fields"] := by
  rw [build_org_enrichment_patch_v2, List.map_append, List.map_append, List.map_append]
  have h1 : List.Sublist ((patchLabels w l).map Prod.fst) ["label_ids"] := by
    rcases patchLabels_shape w l with hs | ⟨hs, _⟩ <;> rw [hs]
    · exact List.nil_sublist _
    · exact List.Sublist.refl _
  have h2 : List.Sublist ((patchAddress w l).map Prod.fst) ["address"] := by
    rcases patchAddress_shape w l with hs | ⟨la, hs, _, _, _⟩ <;> rw [hs]
    · exact List.nil_sublist _
    · exact List.Sublist.refl _
  have h3 : List.Sublist ((patchScalars w l).map Prod.fst) ["cc_email", "owner_id", "visible_to"] := by
    rw [patchScalars, List.map_map]
    have hid : (Prod.fst ∘ fun k => (k, vGet l k)) = (id : String → String) := rfl
    rw [hid, List.map_id]
    exact List.filter_sublist _
  have h4 : List.Sublist ((patchCustom w l).map Prod.fst) ["custom_fields"] := by
    rcases patchCustom_shape w l with hs | ⟨hs, _, _⟩ <;> rw [hs]
    · exact List.nil_sublist _
    · exact List.Sublist.refl _
  have hall := ((h1.append h2).append h3).append h4
  simpa using hall

/-- The patch never repeats a key. -/
theorem patch_keys_nodup (w l : V) :
    ((build_org_enrichment_patch_v2 w l).map Prod.fst).Nodup :=
  List.Nodup.sublist (patch_keys_sublist w l) (by decide)

/-- Reading a patched field back returns the patch value. -/
theorem applyPatch_vGet_mem (w : List (String × V)) (patch : List (String × V))
    (k : String) (v : V) (hnd : (patch.map Prod.fst).Nodup) (hm : (k, v) ∈ patch) :
    vGet (applyPatch (V.vdict w) patch) k = v := by
  show ((patch.foldl (fun acc kv => updAssocV acc kv.1 kv.2) w).lookup k).getD .vnull = v
  rw [foldUpd_lookup_mem patch w k v hnd hm]
  rfl

/-- Reading an unpatched field back returns the original value. -/
theorem applyPatch_vGet_notin (w : List (String × V)) (patch : List (String × V))
    (k : String) (h : k ∉ patch.map Prod.fst) :
    vGet (applyPatch (V.vdict w) patch) k = vGet (V.vdict w) k := by
  show ((patch.foldl (fun acc kv => updAssocV acc kv.1 kv.2) w).lookup k).getD .vnull
    = (w.lookup k).getD .vnull
  rw [foldUpd_lookup_notin patch w k h]

/-- Attribution of a patch key to the block that produced it. -/
theorem patch_key_cases (w l : V) (k : String)
    (hk : k ∈ (build_org_enrichment_patch_v2 w l).map Prod.fst) :
    (k = "label_ids" ∧ patchLabels w l ≠ []) ∨
    (k = "address" ∧ patchAddress w l ≠ []) ∨
    (∃ v, (k, v) ∈ patchScalars w l) ∨
    (k = "custom_fields" ∧ patchCustom w l ≠ []) := by
  rcases List.mem_map.mp hk with ⟨kv, hkv, he⟩
  rcases patch_mem_cases _ _ kv hkv with h1 | h2 | h3 | h4
  · exact Or.inl ⟨by rw [← he]; exact patchLabels_key _ _ _ h1,
      fun hz => by rw [hz] at h1; cases h1⟩
  · exact Or.inr (Or.inl ⟨by rw [← he]; exact patchAddress_key _ _ _ h2,
      fun hz => by rw [hz] at h2; cases h2⟩)
  · refine Or.inr (Or.inr (Or.inl ⟨kv.2, ?_⟩))
    rw [← he]
    exact h3
  · exact Or.inr (Or.inr (Or.inr ⟨by rw [← he]; exact patchCustom_key _ _ _ h4,
      fun hz => by rw [hz] at h4; cases h4⟩))

/-- Re-running the label block after the patch was applied yields nothing. -/
theorem second_patchLabels_empty (w l : List (String × V)) :
    patchLabels
      (applyPatch (V.vdict w) (build_org_enrichment_patch_v2 (V.vdict w) (V.vdict l)))
      (V.vdict l) = [] := by
  rcases patchLabels_shape (V.vdict w) (V.vdict l) with hs | ⟨hs, hlo⟩
  · have hnk : "label_ids" ∉
        (build_org_enrichment_patch_v2 (V.vdict w) (V.vdict l)).map Prod.fst := by
      intro hmem
      rcases patch_key_cases _ _ _ hmem with ⟨_, hne⟩ | ⟨he, _⟩ | ⟨v, hv3⟩ | ⟨he, _⟩
      · exact hne hs
      · exact absurd he (by decide)
      · exact absurd (patchScalars_key _ _ _ hv3)
          (show ("label_ids" : String) ∉ ["cc_email", "owner_id", "visible_to"] by decide)
      · exact absurd he (by decide)
    rw [patchLabels_congr _ (V.vdict w) _ (applyPatch_vGet_notin w _ "label_ids" hnk), hs]
  · set M := sortedDedupInt (labelInts (labelsOf (V.vdict w) ++ labelsOf (V.vdict l)))
    have hmemP : ("label_ids", V.vlist (M.map V.vint)) ∈
        build_org_enrichment_patch_v2 (V.vdict w) (V.vdict l) := by
      rw [build_org_enrichment_patch_v2]
      apply List.mem_append_left
      apply List.mem_append_left
      apply List.mem_append_left
      rw [hs]
      exact List.mem_singleton.mpr rfl
    have hv := applyPatch_vGet_mem w _ _ _ (patch_keys_nodup _ _) hmemP
    have hW2 : pyOr (vGet
        (applyPatch (V.vdict w) (build_org_enrichment_patch_v2 (V.vdict w) (V.vdict l)))
        "label_ids") (V.vlist []) = V.vlist (M.map V.vint) := by
      rw [hv]
      exact pyOr_vlist _
    simp only [patchLabels, hW2, hlo]
    have hM : labelInts (M.map V.vint) = M := by
      apply labelInts_map_vint
      intro i hi
      exact labelInts_nonneg _ i ((mem_sortedDedupInt i _).mp hi)
    have hM2 : sortedDedupInt (labelInts (M.map V.vint ++ labelsOf (V.vdict l))) = M := by
      apply pairwise_lt_eq_of_mem_iff _ _ (pairwise_sortedDedupInt _) (pairwise_sortedDedupInt _)
      intro a
      rw [mem_sortedDedupInt, labelInts_append, hM, List.mem_append]
      constructor
      · rintro (h | h)
        · exact h
        · apply (mem_sortedDedupInt a _).mpr
          rw [labelInts_append, List.mem_append]
          exact Or.inr h
      · exact Or.inl
    rw [hM2, if_neg (by rw [eqLabelList_self]; simp)]

/-- Re-running the address block after the patch was applied yields
nothing. -/
theorem second_patchAddress_empty (w l : List (String × V)) :
    patchAddress
      (applyPatch (V.vdict w) (build_org_enrichment_patch_v2 (V.vdict w) (V.vdict l)))
      (V.vdict l) = [] := by
  rcases patchAddress_shape (V.vdict w) (V.vdict l) with hs | ⟨la, hs, hwe, hlv, hlo⟩
  · have hnk : "address" ∉
        (build_org_enrichment_patch_v2 (V.vdict w) (V.vdict l)).map Prod.fst := by
      intro hmem
      rcases patch_key_cases _ _ _ hmem with ⟨he, _⟩ | ⟨_, hne⟩ | ⟨v, hv3⟩ | ⟨he, _⟩
      · exact absurd he (by decide)
      · exact hne hs
      · exact absurd (patchScalars_key _ _ _ hv3)
          (show ("address" : String) ∉ ["cc_email", "owner_id", "visible_to"] by decide)
      · exact absurd he (by decide)
    rw [patchAddress_congr _ (V.vdict w) _ (applyPatch_vGet_notin w _ "address" hnk), hs]
  · have hmemP : ("address", V.vdict la) ∈
        build_org_enrichment_patch_v2 (V.vdict w) (V.vdict l) := by
      rw [build_org_enrichment_patch_v2]
      apply List.mem_append_left
      apply List.mem_append_left
      apply List.mem_append_right
      rw [hs]
      exact List.mem_singleton.mpr rfl
    have hv := applyPatch_vGet_mem w _ _ _ (patch_keys_nodup _ _) hmemP
    have hW2 : pyOr (vGet
        (applyPatch (V.vdict w) (build_org_enrichment_patch_v2 (V.vdict w) (V.vdict l)))
        "address") (V.vdict []) = V.vdict la := by
      rw [hv]
      exact pyOr_vdict _
    simp only [patchAddress, hW2, hlo]
    rw [if_neg (by rw [hlv]; simp)]

/-- Re-running the scalar block after the patch was applied yields
nothing. -/
theorem second_patchScalars_empty (w l : List (String × V)) :
    patchScalars
      (applyPatch (V.vdict w) (build_org_enrichment_patch_v2 (V.vdict w) (V.vdict l)))
      (V.vdict l) = [] := by
  rw [patchScalars]
  have hfilter : (["cc_email", "owner_id", "visible_to"].filter
      (fun k => keyIn (V.vdict l) k && v2_is_empty (vGet
        (applyPatch (V.vdict w) (build_org_enrichment_patch_v2 (V.vdict w) (V.vdict l))) k)
        && !v2_is_empty (vGet (V.vdict l) k))) = [] := by
    rw [List.filter_eq_nil_iff]
    intro k hk hcc
    simp only [Bool.and_eq_true] at hcc
    by_cases hc1 : (keyIn (V.vdict l) k && v2_is_empty (vGet (V.vdict w) k)
        && !v2_is_empty (vGet (V.vdict l) k)) = true
    · have hmemP : (k, vGet (V.vdict l) k) ∈
          build_org_enrichment_patch_v2 (V.vdict w) (V.vdict l) := by
        rw [build_org_enrichment_patch_v2]
        apply List.mem_append_left
        apply List.mem_append_right
        exact (patchScalars_mem _ _ k _).mpr ⟨hk, hc1, rfl⟩
      have hv := applyPatch_vGet_mem w _ _ _ (patch_keys_nodup _ _) hmemP
      rw [hv] at hcc
      rw [Bool.and_eq_true, Bool.and_eq_true] at hc1
      have h2 := hc1.2
      rw [hcc.1.2] at h2
      exact absurd h2 (by decide)
    · have hnk : k ∉
          (build_org_enrichment_patch_v2 (V.vdict w) (V.vdict l)).map Prod.fst := by
        intro hmem
        rcases patch_key_cases _ _ _ hmem with ⟨he, _⟩ | ⟨he, _⟩ | ⟨v, hv3⟩ | ⟨he, _⟩
        · rw [he] at hk; exact absurd hk (by decide)
        · rw [he] at hk; exact absurd hk (by decide)
        · rcases (patchScalars_mem _ _ _ _).mp hv3 with ⟨_, hca, _⟩
          exact hc1 hca
        · rw [he] at hk; exact absurd hk (by decide)
      have hv := applyPatch_vGet_notin w _ k hnk
      rw [hv] at hcc
      apply hc1
      rw [Bool.and_eq_true, Bool.and_eq_true]
      exact hcc
  rw [hfilter]
  rfl

/-- Re-running the custom-fields block after the patch was applied yields
nothing. -/
theorem second_patchCustom_empty (w l : List (String × V)) :
    patchCustom
      (applyPatch (V.vdict w) (build_org_enrichment_patch_v2 (V.vdict w) (V.vdict l)))
      (V.vdict l) = [] := by
  rcases patchCustom_shape (V.vdict w) (V.vdict l) with hs | ⟨hs, hch, hlo⟩
  · have hnk : "custom_fields" ∉
        (build_org_enrichment_patch_v2 (V.vdict w) (V.vdict l)).map Prod.fst := by
      intro hmem
      rcases patch_key_cases _ _ _ hmem with ⟨he, _⟩ | ⟨he, _⟩ | ⟨v, hv3⟩ | ⟨_, hne⟩
      · exact absurd he (by decide)
      · exact absurd he (by decide)
      · exact absurd (patchScalars_key _ _ _ hv3)
          (show ("custom_fields" : String) ∉ ["cc_email", "owner_id", "visible_to"] by decide)
      · exact hne hs
    rw [patchCustom_congr _ (V.vdict w) _ (applyPatch_vGet_notin w _ "custom_fields" hnk), hs]
  · have hmemP : ("custom_fields", V.vdict
        ((customFieldsOf (V.vdict l)).foldl cfStep (customFieldsOf (V.vdict w), false)).1) ∈
        build_org_enrichment_patch_v2 (V.vdict w) (V.vdict l) := by
      rw [build_org_enrichment_patch_v2]
      apply List.mem_append_right
      rw [hs]
      exact List.mem_singleton.mpr rfl
    have hv := applyPatch_vGet_mem w _ _ _ (patch_keys_nodup _ _) hmemP
    have hW2 : pyOr (vGet
        (applyPatch (V.vdict w) (build_org_enrichment_patch_v2 (V.vdict w) (V.vdict l)))
        "custom_fields") (V.vdict []) = V.vdict
        ((customFieldsOf (V.vdict l)).foldl cfStep (customFieldsOf (V.vdict w), false)).1 := by
      rw [hv]
      exact pyOr_vdict _
    simp only [patchCustom, hW2, hlo]
    have hnc : (customFieldsOf (V.vdict l)).foldl cfStep
        (((customFieldsOf (V.vdict l)).foldl cfStep (customFieldsOf (V.vdict w), false)).1, false)
        = (((customFieldsOf (V.vdict l)).foldl cfStep (customFieldsOf (V.vdict w), false)).1,
          false) := by
      apply cfFold_no_change
      intro kv hkv
      dsimp only
      by_cases hlve : v2_is_empty kv.2 = true
      · rw [hlve]
        simp
      · have hf := cfFold_fills (customFieldsOf (V.vdict l))
          (customFieldsOf (V.vdict w), false) kv.1 kv.2 hkv (Bool.eq_false_iff.mpr hlve)
        rw [hf]
        rfl
    by_cases hne : (customFieldsOf (V.vdict l)).isEmpty = true
    · rw [if_neg (by rw [hne]; simp)]
    · rw [if_pos (by rw [Bool.eq_false_iff.mpr hne]; rfl)]
      simp only [hnc]
      rfl

/-- C6 (counterexample): the enrichment patch CAN contain a custom-field
key whose winner value is non-empty. With winner custom fields
`{a: "x", b: ""}` and loser custom fields `{b: "y"}`, the emitted
`custom_fields` object is the whole merged dict `{a: "x", b: "y"}`: it
carries the key `a` although the winner value `"x"` is non-empty (the
value is carried unchanged, not overwritten). -/
theorem enrichment_patch_carries_nonempty_custom_key :
    build_org_enrichment_patch_v2
        (V.vdict [("custom_fields", V.vdict [("a", V.vstr "x"), ("b", V.vstr "")])])
        (V.vdict [("custom_fields", V.vdict [("b", V.vstr "y")])])
      = [("custom_fields", V.vdict [("a", V.vstr "x"), ("b", V.vstr "y")])] ∧
    v2_is_empty (V.vstr "x") = false := ⟨rfl, rfl⟩

/-- C6: the enrichment patch only fills empty winner fields and never
changes a non-empty winner value, and it is idempotent. For dict-shaped
winner and loser: (1) an `address` entry is emitted only when the winner
`address.value` is blank; (2) a scalar entry (`cc_email`, `owner_id`,
`visible_to`) is emitted only when the winner value is blank, and it
carries the loser value; (3) the `custom_fields` entry never changes a
custom-field key whose winner value is non-blank: that key keeps exactly
its winner value (the dict may carry such keys, which corrects the
claim); (4) the `label_ids` entry is exactly the union of the two
integer label sets; and (5) applying the patch to the winner and
recomputing against the same loser yields the empty patch. -/
theorem enrichment_patch_fills_only_and_idempotent (w l : List (String × V)) :
    (∀ a, ("address", a) ∈ build_org_enrichment_patch_v2 (V.vdict w) (V.vdict l) →
      v2_is_empty (addrValue (V.vdict w)) = true) ∧
    (∀ k v, k ∈ (["cc_email", "owner_id", "visible_to"] : List String) →
      (k, v) ∈ build_org_enrichment_patch_v2 (V.vdict w) (V.vdict l) →
      v2_is_empty (vGet (V.vdict w) k) = true ∧ v = vGet (V.vdict l) k) ∧
    (∀ out k wv,
      ("custom_fields", V.vdict out) ∈ build_org_enrichment_patch_v2 (V.vdict w) (V.vdict l) →
      (customFieldsOf (V.vdict w)).lookup k = some wv → v2_is_empty wv = false →
      out.lookup k = some wv) ∧
    (∀ ids, ("label_ids", V.vlist ids) ∈ build_org_enrichment_patch_v2 (V.vdict w) (V.vdict l) →
      ∀ i : Int, (V.vint i ∈ ids ↔
        (i ∈ labelInts (labelsOf (V.vdict w)) ∨ i ∈ labelInts (labelsOf (V.vdict l))))) ∧
    build_org_enrichment_patch_v2
      (applyPatch (V.vdict w) (build_org_enrichment_patch_v2 (V.vdict w) (V.vdict l)))
      (V.vdict l) = [] := by
  refine ⟨?_, ?_, ?_, ?_, ?_⟩
  · intro a hmem
    rcases patch_mem_cases _ _ _ hmem with h1 | h2 | h3 | h4
    · have hkey : ("address" : String) = "label_ids" := patchLabels_key _ _ _ h1
      exact absurd hkey (by decide)
    · rcases patchAddress_shape (V.vdict w) (V.vdict l) with hs | ⟨la, hs, hwe, _, _⟩
      · rw [hs] at h2
        cases h2
      · exact hwe
    · exact absurd (patchScalars_key _ _ _ h3)
        (show ("address" : String) ∉ ["cc_email", "owner_id", "visible_to"] by decide)
    · have hkey : ("address" : String) = "custom_fields" := patchCustom_key _ _ _ h4
      exact absurd hkey (by decide)
  · intro k v hk hmem
    rcases patch_mem_cases _ _ _ hmem with h1 | h2 | h3 | h4
    · have hkey : k = "label_ids" := patchLabels_key _ _ _ h1
      rw [hkey] at hk
      exact absurd hk (by decide)
    · have hkey : k = "address" := patchAddress_key _ _ _ h2
      rw [hkey] at hk
      exact absurd hk (by decide)
    · rcases (patchScalars_mem _ _ _ _).mp h3 with ⟨_, hc, hveq⟩
      rw [Bool.and_eq_true, Bool.and_eq_true] at hc
      exact ⟨hc.1.2, hveq⟩
    · have hkey : k = "custom_fields" := patchCustom_key _ _ _ h4
      rw [hkey] at hk
      exact absurd hk (by decide)
  · intro out k wv hmem hlook hne
    rcases patch_mem_cases _ _ _ hmem with h1 | h2 | h3 | h4
    · have hkey : ("custom_fields" : String) = "label_ids" := patchLabels_key _ _ _ h1
      exact absurd hkey (by decide)
    · have hkey : ("custom_fields" : String) = "address" := patchAddress_key _ _ _ h2
      exact absurd hkey (by decide)
    · exact absurd (patchScalars_key _ _ _ h3)
        (show ("custom_fields" : String) ∉ ["cc_email", "owner_id", "visible_to"] by decide)
    · rcases patchCustom_shape (V.vdict w) (V.vdict l) with hs | ⟨hs, _, _⟩
      · rw [hs] at h4
        cases h4
      · rw [hs] at h4
        have hpair := List.mem_singleton.mp h4
        injection hpair with _ hval
        injection hval with hout
        rw [hout]
        exact cfFold_preserves_nonempty _ _ k wv hlook hne
  · intro ids hmem i
    rcases patch_mem_cases _ _ _ hmem with h1 | h2 | h3 | h4
    · rcases patchLabels_shape (V.vdict w) (V.vdict l) with hs | ⟨hs, _⟩
      · rw [hs] at h1
        cases h1
      · rw [hs] at h1
        have hpair := List.mem_singleton.mp h1
        injection hpair with _ hval
        injection hval with hids
        rw [hids]
        constructor
        · intro hmm2
          rcases List.mem_map.mp hmm2 with ⟨j, hj, hje⟩
          injection hje with hje
          subst hje
          have hj2 := (mem_sortedDedupInt j _).mp hj
          rw [labelInts_append, List.mem_append] at hj2
          exact hj2
        · intro hor
          refine List.mem_map.mpr ⟨i, ?_, rfl⟩
          apply (mem_sortedDedupInt i _).mpr
          rw [labelInts_append, List.mem_append]
          exact hor
    · have hkey : ("label_ids" : String) = "address" := patchAddress_key _ _ _ h2
      exact absurd hkey (by decide)
    · exact absurd (patchScalars_key _ _ _ h3)
        (show ("label_ids" : String) ∉ ["cc_email", "owner_id", "visible_to"] by decide)
    · have hkey : ("label_ids" : String) = "custom_fields" := patchCustom_key _ _ _ h4
      exact absurd hkey (by decide)
  · rw [build_org_enrichment_patch_v2, second_patchLabels_empty, second_patchAddress_empty,
      second_patchScalars_empty, second_patchCustom_empty]
    rfl

/-- Witness for the enrichment theorem: a concrete winner with blank
address value, blank `cc_email` and one blank custom field, merged with a
loser providing all three, satisfies every conclusion with every
hypothesis discharged by evaluation. -/
theorem enrichment_patch_fills_only_and_idempotent_witness :
    v2_is_empty (addrValue (V.vdict [("label_ids", V.vlist [V.vint 2]), ("address", V.vdict [("value", V.vstr "")]), ("cc_email", V.vstr ""), ("custom_fields", V.vdict [("a", V.vstr "x"), ("b", V.vstr "")])])) = true ∧
    v2_is_empty (vGet (V.vdict [("label_ids", V.vlist [V.vint 2]), ("address", V.vdict [("value", V.vstr "")]), ("cc_email", V.vstr ""), ("custom_fields", V.vdict [("a", V.vstr "x"), ("b", V.vstr "")])]) "cc_email") = true ∧
    (V.vstr "x@y.z") = vGet (V.vdict [("label_ids", V.vlist [V.vint 1]), ("address", V.vdict [("value", V.vstr "Main St 1")]), ("cc_email", V.vstr "x@y.z"), ("custom_fields", V.vdict [("b", V.vstr "y")])]) "cc_email" ∧
    ([("a", V.vstr "x"), ("b", V.vstr "y")] : List (String × V)).lookup "a"
      = some (V.vstr "x") ∧
    V.vint 1 ∈ ([V.vint 1, V.vint 2] : List V) ∧
    build_org_enrichment_patch_v2
      (applyPatch (V.vdict [("label_ids", V.vlist [V.vint 2]), ("address", V.vdict [("value", V.vstr "")]), ("cc_email", V.vstr ""), ("custom_fields", V.vdict [("a", V.vstr "x"), ("b", V.vstr "")])])
        (build_org_enrichment_patch_v2 (V.vdict [("label_ids", V.vlist [V.vint 2]), ("address", V.vdict [("value", V.vstr "")]), ("cc_email", V.vstr ""), ("custom_fields", V.vdict [("a", V.vstr "x"), ("b", V.vstr "")])]) (V.vdict [("label_ids", V.vlist [V.vint 1]), ("address", V.vdict [("value", V.vstr "Main St 1")]), ("cc_email", V.vstr "x@y.z"), ("custom_fields", V.vdict [("b", V.vstr "y")])])))
      (V.vdict [("label_ids", V.vlist [V.vint 1]), ("address", V.vdict [("value", V.vstr "Main St 1")]), ("cc_email", V.vstr "x@y.z"), ("custom_fields", V.vdict [("b", V.vstr "y")])]) = [] := by
  have h := enrichment_patch_fills_only_and_idempotent
    [("label_ids", V.vlist [V.vint 2]), ("address", V.vdict [("value", V.vstr "")]), ("cc_email", V.vstr ""), ("custom_fields", V.vdict [("a", V.vstr "x"), ("b", V.vstr "")])]
    [("label_ids", V.vlist [V.vint 1]), ("address", V.vdict [("value", V.vstr "Main St 1")]), ("cc_email", V.vstr "x@y.z"), ("custom_fields", V.vdict [("b", V.vstr "y")])]
  have hP : build_org_enrichment_patch_v2 (V.vdict [("label_ids", V.vlist [V.vint 2]), ("address", V.vdict [("value", V.vstr "")]), ("cc_email", V.vstr ""), ("custom_fields", V.vdict [("a", V.vstr "x"), ("b", V.vstr "")])]) (V.vdict [("label_ids", V.vlist [V.vint 1]), ("address", V.vdict [("value", V.vstr "Main St 1")]), ("cc_email", V.vstr "x@y.z"), ("custom_fields", V.vdict [("b", V.vstr "y")])])
      = [("label_ids", V.vlist [V.vint 1, V.vint 2]), ("address", V.vdict [("value", V.vstr "Main St 1")]), ("cc_email", V.vstr "x@y.z"), ("custom_fields", V.vdict [("a", V.vstr "x"), ("b", V.vstr "y")])] := rfl
  refine ⟨?_, ?_, ?_, ?_, ?_, h.2.2.2.2⟩
  · exact h.1 (V.vdict [("value", V.vstr "Main St 1")])
      (by rw [hP]; exact List.mem_cons_of_mem _ (List.mem_cons_self _ _))
  · exact (h.2.1 "cc_email" (V.vstr "x@y.z") (by decide)
      (by rw [hP]
          exact List.mem_cons_of_mem _ (List.mem_cons_of_mem _ (List.mem_cons_self _ _)))).1
  · exact (h.2.1 "cc_email" (V.vstr "x@y.z") (by decide)
      (by rw [hP]
          exact List.mem_cons_of_mem _ (List.mem_cons_of_mem _ (List.mem_cons_self _ _)))).2
  · exact h.2.2.1 [("a", V.vstr "x"), ("b", V.vstr "y")] "a" (V.vstr "x")
      (by rw [hP]
          exact List.mem_cons_of_mem _ (List.mem_cons_of_mem _
            (List.mem_cons_of_mem _ (List.mem_cons_self _ _)))) rfl rfl
  · exact (h.2.2.2.1 [V.vint 1, V.vint 2]
      (by rw [hP]; exact List.mem_cons_self _ _) 1).mpr (Or.inr (by decide))
